import Mathlib

/-!
# kyoketsu: subnet enumeration, port walk and reconciliation

A shallow embedding of `pkg/local.go`, `pkg/scanner.go` and `pkg/webserver.go`.

Conventions of the embedding

* Go `string` is `String`; the standard-library parsers work on its characters.
* Go `int` values are `Int` (ports) or `Nat` where the value is a length or an
  already validated prefix.
* A byte slice (`net.IP`, `net.IPMask`) is its length tag together with the
  big-endian number the bytes spell, so the byte-wise `&` of `IP.Mask` is `&&&`.
* `log.Fatal` ends the process: a computation that reaches it has outcome
  `Run.fatal`.  Unbounded Go recursion is given fuel; `Run.outOfFuel` is the
  outcome of too little fuel and never stands for a Go behaviour.
* The Go standard library (`net`, `net/netip`, `strconv`, `strings`, `fmt`) is
  modelled from its source and documentation (Go 1.22 behaviour).
-/

namespace Kyoketsu

/-! ## Outcomes -/

/-- Outcome of a Go computation that may end the process. -/
inductive Run (α : Type) where
  | done (a : α)
  | fatal (site : String)
  | indexOutOfRange
  | outOfFuel
  deriving DecidableEq, Repr

/-! ## Decimal text -/

/-- The ASCII digit of `d` (for `d < 10`). -/
def digitChar (d : Nat) : Char := Char.ofNat (48 + d)

/-- Go test `'0' <= c && c <= '9'`. -/
def isDigit (c : Char) : Bool := decide (48 ≤ c.toNat) && decide (c.toNat ≤ 57)

/-- Go `int(c) - '0'`, used after `isDigit c`. -/
def digitVal (c : Char) : Nat := c.toNat - 48

/-- Decimal digits of `n`, most significant first (`fuel` bounds the digit count). -/
def decimalDigits : Nat → Nat → List Char
  | 0, _ => []
  | fuel + 1, n =>
    if n < 10 then [digitChar n] else decimalDigits fuel (n / 10) ++ [digitChar (n % 10)]

/-- Go `strconv.Itoa` (also what `fmt` prints for an `int` under `%v`). -/
def Itoa (i : Int) : String :=
  match i with
  | Int.ofNat n => ⟨decimalDigits (n + 1) n⟩
  | Int.negSucc n => ⟨'-' :: decimalDigits (n + 2) (n + 1)⟩

/-! ## `net/netip`: addresses -/

/-- Go `netip.Addr`: the zero value, an IPv4 address, or an IPv6 address with zone. -/
inductive Addr where
  | zero
  | v4 (n : Nat)
  | v6 (n : Nat) (zone : String)
  deriving DecidableEq, Repr

/-- Go `netip.appendDecimal`: an octet in decimal without leading zeros. -/
def appendDecimal (x : Nat) : List Char :=
  (if 100 ≤ x then [digitChar (x / 100)] else []) ++
  (if 10 ≤ x then [digitChar (x / 10 % 10)] else []) ++ [digitChar (x % 10)]

/-- Go `Addr.string4`: dotted quad of the low 32 bits. -/
def string4 (n : Nat) : List Char :=
  appendDecimal (n / 16777216 % 256) ++ ('.' :: (appendDecimal (n / 65536 % 256) ++
    ('.' :: (appendDecimal (n / 256 % 256) ++ ('.' :: appendDecimal (n % 256))))))

/-- Loop of Go `netip.parseIPv4Fields` over the remaining bytes.  `prev` is the byte
before the current one (`none` at index 0), `val` and `digLen` the octet being read,
`pos` the number of octets stored and `acc` the octets stored so far, big-endian. -/
def parseIPv4Loop : List Char → Option Char → Nat → Nat → Nat → Nat → Option Nat
  | [], _, val, _, pos, acc => if pos < 3 then none else some (acc * 256 + val)
  | c :: rest, prev, val, digLen, pos, acc =>
    if isDigit c then
      if digLen = 1 ∧ val = 0 then none
      else if val * 10 + digitVal c > 255 then none
      else parseIPv4Loop rest (some c) (val * 10 + digitVal c) (digLen + 1) pos acc
    else if c = '.' then
      if prev = none ∨ rest = [] ∨ prev = some '.' then none
      else if pos = 3 then none
      else parseIPv4Loop rest (some c) 0 0 (pos + 1) (acc * 256 + val)
    else none

/-- Go `netip.parseIPv4Fields`: four decimal octets, as one big-endian number. -/
def parseIPv4Fields (s : List Char) : Option Nat := parseIPv4Loop s none 0 0 0 0

/-- Value of a hexadecimal digit, as the three ranges Go `netip.parseIPv6` tests. -/
def hexVal (c : Char) : Option Nat :=
  if 48 ≤ c.toNat ∧ c.toNat ≤ 57 then some (c.toNat - 48)
  else if 97 ≤ c.toNat ∧ c.toNat ≤ 102 then some (c.toNat - 97 + 10)
  else if 65 ≤ c.toNat ∧ c.toNat ≤ 70 then some (c.toNat - 65 + 10)
  else none

/-- Inner loop of Go `netip.parseIPv6`: reads one hexadecimal group.  Returns the
number of digits read, their value and the unread bytes; `none` is the error return. -/
def parseHexLoop : List Char → Nat → Nat → Option (Nat × Nat × List Char)
  | [], off, acc => some (off, acc, [])
  | c :: rest, off, acc =>
    match hexVal c with
    | none => some (off, acc, c :: rest)
    | some v =>
      if off > 3 then none
      else if acc * 16 + v > 65535 then none
      else parseHexLoop rest (off + 1) (acc * 16 + v)

/-- Outer loop of Go `netip.parseIPv6` (`for i < 16`).  `ip` holds the bytes written
so far, so `i = ip.length`; `ellipsis` is the byte position of `::` if seen.  Returns
the unread bytes, the bytes written and the ellipsis on leaving the loop. -/
def parseIPv6Loop : Nat → List Char → List Nat → Option Nat →
    Option (List Char × List Nat × Option Nat)
  | 0, s, ip, ellipsis => some (s, ip, ellipsis)
  | fuel + 1, s, ip, ellipsis =>
    if 16 ≤ ip.length then some (s, ip, ellipsis)
    else
      match parseHexLoop s 0 0 with
      | none => none
      | some (off, acc, rest) =>
        if off = 0 then none
        else if rest.head? = some '.' then
          if ellipsis = none ∧ ip.length ≠ 12 then none
          else if ip.length + 4 > 16 then none
          else
            match parseIPv4Loop s none 0 0 0 0 with
            | none => none
            | some v =>
              some ([], ip ++ [v / 16777216 % 256, v / 65536 % 256, v / 256 % 256, v % 256],
                ellipsis)
        else
          let ip2 := ip ++ [acc / 256, acc % 256]
          match rest with
          | [] => some ([], ip2, ellipsis)
          | c :: s1 =>
            if c ≠ ':' then none
            else
              match s1 with
              | [] => none
              | d :: s2 =>
                if d = ':' then
                  if ellipsis.isSome then none
                  else
                    match s2 with
                    | [] => some ([], ip2, some ip2.length)
                    | _ :: _ => parseIPv6Loop fuel s2 ip2 (some ip2.length)
                else parseIPv6Loop fuel s1 ip2 ellipsis

/-- Big-endian number spelled by a list of bytes. -/
def bytesToNat (bs : List Nat) : Nat := bs.foldl (fun a b => a * 256 + b) 0

/-- Position of the first `c` in `s` (Go `bytealg.IndexByteString`, `none` for -1). -/
def indexByte (c : Char) : List Char → Option Nat
  | [] => none
  | d :: rest => if d = c then some 0 else (indexByte c rest).map (· + 1)

/-- Go `netip.parseIPv6`. -/
def parseIPv6 (inp : List Char) : Option Addr :=
  let split : Option (List Char × List Char) :=
    match indexByte '%' inp with
    | none => some (inp, [])
    | some i => if inp.drop (i + 1) = [] then none else some (inp.take i, inp.drop (i + 1))
  match split with
  | none => none
  | some (s, zone) =>
    let lead : Bool := match s with
      | ':' :: ':' :: _ => true
      | _ => false
    let s1 := if lead then s.drop 2 else s
    let ellipsis : Option Nat := if lead then some 0 else none
    if lead ∧ s1 = [] then some (Addr.v6 0 ⟨zone⟩)
    else
      match parseIPv6Loop 8 s1 [] ellipsis with
      | none => none
      | some (rest, ip, ell) =>
        if rest ≠ [] then none
        else if ip.length < 16 then
          match ell with
          | none => none
          | some e =>
            some (Addr.v6 (bytesToNat (ip.take e ++ List.replicate (16 - ip.length) 0 ++ ip.drop e))
              ⟨zone⟩)
        else if ell.isSome then none
        else some (Addr.v6 (bytesToNat ip) ⟨zone⟩)

/-- Go `netip.ParseAddr`: the first `.`, `:` or `%` chooses the parser. -/
def parseAddrScan (whole : List Char) : List Char → Option Addr
  | [] => none
  | c :: rest =>
    if c = '.' then (parseIPv4Fields whole).map Addr.v4
    else if c = ':' then parseIPv6 whole
    else if c = '%' then none
    else parseAddrScan whole rest

/-- Go `netip.ParseAddr`; `none` is the error return. -/
def ParseAddr (s : String) : Option Addr := parseAddrScan s.data s.data

/-- Go `Addr.Next`: the following address, the zero `Addr` on overflow. -/
def Addr.Next : Addr → Addr
  | Addr.zero => Addr.zero
  | Addr.v4 n => if (n + 1) % 4294967296 = 0 then Addr.zero else Addr.v4 (n + 1)
  | Addr.v6 n z => if (n + 1) % 2 ^ 128 = 0 then Addr.zero else Addr.v6 (n + 1) z

/-- Go `Addr.Zone`. -/
def Addr.Zone : Addr → String
  | Addr.v6 _ z => z
  | _ => ""

/-- Go `Addr.BitLen`. -/
def Addr.BitLen : Addr → Nat
  | Addr.zero => 0
  | Addr.v4 _ => 32
  | Addr.v6 _ _ => 128

/-- Lower-case hexadecimal digit. -/
def hexDigit (d : Nat) : Char := if d < 10 then Char.ofNat (48 + d) else Char.ofNat (87 + d)

/-- Go `netip.appendHex`: a 16-bit field in hexadecimal without leading zeros. -/
def appendHex (x : Nat) : List Char :=
  (if 4096 ≤ x then [hexDigit (x / 4096)] else []) ++
  (if 256 ≤ x then [hexDigit (x / 256 % 16)] else []) ++
  (if 16 ≤ x then [hexDigit (x / 16 % 16)] else []) ++ [hexDigit (x % 16)]

/-- Go `Addr.v6u16`: the `i`-th 16-bit field of a 128-bit address. -/
def v6u16 (n i : Nat) : Nat := n / 2 ^ (16 * (7 - i)) % 65536

/-- Number of zero fields at the front of a list. -/
def zeroRunLen : List Nat → Nat
  | [] => 0
  | f :: fs => if f = 0 then zeroRunLen fs + 1 else 0

/-- First loop of Go `Addr.appendTo6`: the first longest run of at least two zero
fields, as `(zeroStart, zeroEnd)`, starting from `(255, 255)`. -/
def longestZeroRun : List Nat → Nat → Nat × Nat → Nat × Nat
  | [], _, best => best
  | f :: fs, i, best =>
    longestZeroRun fs (i + 1)
      (if 2 ≤ zeroRunLen (f :: fs) ∧ zeroRunLen (f :: fs) > best.2 - best.1
       then (i, i + zeroRunLen (f :: fs)) else best)

/-- Second loop of Go `Addr.appendTo6`, from field `i`. -/
def appendTo6Loop (n zs ze : Nat) : Nat → Nat → List Char
  | 0, _ => []
  | fuel + 1, i =>
    if 8 ≤ i then []
    else if i = zs then
      if 8 ≤ ze then [':', ':']
      else [':', ':'] ++ appendHex (v6u16 n ze) ++ appendTo6Loop n zs ze fuel (ze + 1)
    else (if 0 < i then [':'] else []) ++ appendHex (v6u16 n i) ++
      appendTo6Loop n zs ze fuel (i + 1)

/-- Go `Addr.string6` without the zone. -/
def string6 (n : Nat) : List Char :=
  let run := longestZeroRun ((List.range 8).map (v6u16 n)) 0 (255, 255)
  appendTo6Loop n run.1 run.2 8 0

/-- Go `Addr.String`. -/
def Addr.String : Addr → String
  | Addr.zero => "invalid IP"
  | Addr.v4 n => ⟨string4 n⟩
  | Addr.v6 n z =>
    let zoneText : List Char := if z = "" then [] else '%' :: z.data
    if n / 4294967296 = 65535 then ⟨"::ffff:".data ++ string4 (n % 4294967296) ++ zoneText⟩
    else ⟨string6 n ++ zoneText⟩

/-! ## `net`: byte-slice addresses -/

/-- Go byte slice of an address or a mask (`net.IP`, `net.IPMask`): its length and
the big-endian number its bytes spell.  The nil slice has length 0. -/
structure Bytes where
  len : Nat
  val : Nat
  deriving DecidableEq, Repr

/-- Go `Addr.As16`: the 16-byte form, an IPv4 address as `::ffff:a.b.c.d`. -/
def Addr.As16 : Addr → Bytes
  | Addr.zero => ⟨16, 0⟩
  | Addr.v4 n => ⟨16, 65535 * 4294967296 + n % 4294967296⟩
  | Addr.v6 n _ => ⟨16, n⟩

/-- Go `IP.To4`: the 4-byte form of an IPv4 address, nil otherwise. -/
def To4 (ip : Bytes) : Bytes :=
  if ip.len = 4 then ip
  else if ip.len = 16 ∧ ip.val / 4294967296 = 65535 then ⟨4, ip.val % 4294967296⟩
  else ⟨0, 0⟩

/-- Go `IP.String` for slices of length 0, 4 or 16. -/
def ipString (ip : Bytes) : String :=
  if ip.len = 0 then "<nil>"
  else if (To4 ip).len = 4 then ⟨string4 (To4 ip).val⟩
  else Addr.String (Addr.v6 ip.val "")

/-- Go `net.CIDRMask ones bits`: `ones` one bits followed by zeros, `bits / 8` bytes. -/
def CIDRMask (ones bits : Nat) : Bytes :=
  if bits ≠ 32 ∧ bits ≠ 128 then ⟨0, 0⟩
  else if ones > bits then ⟨0, 0⟩
  else ⟨bits / 8, 2 ^ bits - 2 ^ (bits - ones)⟩

/-- Go `IP.Mask`: byte-wise and, after bringing both operands to the same length. -/
def ipMask (ip mask : Bytes) : Bytes :=
  let mask1 : Bytes :=
    if mask.len = 16 ∧ ip.len = 4 ∧ mask.val / 4294967296 = 2 ^ 96 - 1
    then ⟨4, mask.val % 4294967296⟩ else mask
  let ip1 : Bytes :=
    if mask1.len = 4 ∧ ip.len = 16 ∧ ip.val / 4294967296 = 65535
    then ⟨4, ip.val % 4294967296⟩ else ip
  if ip1.len ≠ mask1.len then ⟨0, 0⟩ else ⟨ip1.len, ip1.val &&& mask1.val⟩

/-- Go `net.IPNet`. -/
structure IPNet where
  IP : Bytes
  Mask : Bytes
  deriving DecidableEq, Repr

/-- Loop of Go `net.dtoi`: leading decimal digits of `s`, giving up at `0xFFFFFF`.
Returns the value, the number of bytes read and whether it stayed in range. -/
def dtoiLoop : List Char → Nat → Nat → Nat × Nat × Bool
  | [], n, i => (n, i, true)
  | c :: rest, n, i =>
    if isDigit c then
      if n * 10 + digitVal c ≥ 16777215 then (16777215, i, false)
      else dtoiLoop rest (n * 10 + digitVal c) (i + 1)
    else (n, i, true)

/-- Go `net.dtoi`. -/
def dtoi (s : List Char) : Nat × Nat × Bool :=
  match dtoiLoop s 0 0 with
  | (n, i, ok) => if ok ∧ i = 0 then (0, 0, false) else (n, i, ok)

/-- Go `net.ParseCIDR`; `none` is the `ParseError` return. -/
def ParseCIDR (s : String) : Option (Bytes × IPNet) :=
  match indexByte '/' s.data with
  | none => none
  | some i =>
    match ParseAddr ⟨s.data.take i⟩ with
    | none => none
    | some ipAddr =>
      if ipAddr.Zone ≠ "" then none
      else
        match dtoi (s.data.drop (i + 1)) with
        | (n, j, ok) =>
          if ok = false ∨ j ≠ (s.data.drop (i + 1)).length ∨ n > ipAddr.BitLen then none
          else
            some (ipAddr.As16,
              { IP := ipMask ipAddr.As16 (CIDRMask n ipAddr.BitLen),
                Mask := CIDRMask n ipAddr.BitLen })

/-- Go `net.ParseIP`: the 16-byte form, nil when `s` is not an address. -/
def ParseIP (s : String) : Bytes :=
  match ParseAddr s with
  | none => ⟨0, 0⟩
  | some a => if a.Zone ≠ "" then ⟨0, 0⟩ else a.As16

/-! ## `strconv`, `strings` -/

/-- Go `strconv.Atoi`: optional sign, decimal digits, value in the 64-bit range;
`none` is the error return. -/
def Atoi (s : String) : Option Int :=
  let body : List Char :=
    match s.data with
    | '-' :: r => r
    | '+' :: r => r
    | r => r
  let v : Nat := body.foldl (fun a c => a * 10 + digitVal c) 0
  if body = [] ∨ body.all isDigit = false then none
  else if s.data.head? = some '-' then (if v > 2 ^ 63 then none else some (-(v : Int)))
  else if v ≥ 2 ^ 63 then none else some (v : Int)

/-- Go `strings.Split s sep` for a one-byte `sep`. -/
def splitByte (sep : Char) : List Char → List (List Char)
  | [] => [[]]
  | c :: cs =>
    if c = sep then [] :: splitByte sep cs
    else
      match splitByte sep cs with
      | [] => [[c]]
      | h :: t => (c :: h) :: t

/-! ## `pkg/local.go` -/

/-- Go `IpSubnetMapper`. -/
structure IpSubnetMapper where
  Ipv4s : List Bytes
  NetworkAddr : Bytes
  Current : Bytes
  Mask : Int
  deriving DecidableEq, Repr

/-- Go zero value `IpSubnetMapper{}`. -/
def IpSubnetMapper.empty : IpSubnetMapper :=
  { Ipv4s := [], NetworkAddr := ⟨0, 0⟩, Current := ⟨0, 0⟩, Mask := 0 }

/-- Errors `GetNetworkAddresses` returns: the `*net.ParseError` of `net.ParseCIDR`
and the `*strconv.NumError` of `strconv.Atoi`, each with the offending text. -/
inductive Err where
  | parseError (text : String)
  | numError (text : String)
  deriving DecidableEq, Repr

/-- Go `getNextAddr`. -/
def getNextAddr (addr : String) : Run String :=
  match ParseAddr addr with
  | none => Run.fatal "getNextAddr"
  | some parsed => Run.done parsed.Next.String

/-- Go `getNetwork`. -/
def getNetwork (addr : String) (cidr : Int) : Run String :=
  match ParseCIDR (addr ++ "/" ++ Itoa cidr) with
  | none => Run.fatal "getNetwork"
  | some (ip, net) => Run.done (ipString (ipMask ip net.Mask))

/-- Go `addressRecurse`; `fuel` bounds the recursion depth. -/
def addressRecurse : Nat → IpSubnetMapper → Run IpSubnetMapper
  | 0, _ => Run.outOfFuel
  | fuel + 1, ipmap =>
    match ipmap.Ipv4s.getLast? with
    | none => Run.indexOutOfRange
    | some last =>
      match getNextAddr (ipString last) with
      | Run.done next =>
        match getNetwork next ipmap.Mask with
        | Run.done network =>
          if network ≠ ipString ipmap.NetworkAddr then Run.done ipmap
          else addressRecurse fuel { ipmap with Ipv4s := ipmap.Ipv4s ++ [ParseIP next] }
        | Run.fatal site => Run.fatal site
        | Run.indexOutOfRange => Run.indexOutOfRange
        | Run.outOfFuel => Run.outOfFuel
      | Run.fatal site => Run.fatal site
      | Run.indexOutOfRange => Run.indexOutOfRange
      | Run.outOfFuel => Run.outOfFuel

/-- Go `GetNetworkAddresses`: the returned pair of mapper and error. -/
def GetNetworkAddresses (fuel : Nat) (addr : String) : Run (IpSubnetMapper × Option Err) :=
  match ParseCIDR addr with
  | none => Run.done (IpSubnetMapper.empty, some (Err.parseError addr))
  | some (ip, ntwrk) =>
    match (splitByte '/' addr.data).get? 1 with
    | none => Run.indexOutOfRange
    | some part =>
      match Atoi ⟨part⟩ with
      | none => Run.done (IpSubnetMapper.empty, some (Err.numError ⟨part⟩))
      | some mask =>
        match addressRecurse fuel
            { Ipv4s := [ip], NetworkAddr := ipMask ip ntwrk.Mask, Mask := mask,
              Current := ipMask ip ntwrk.Mask } with
        | Run.done m => Run.done (m, none)
        | Run.fatal site => Run.fatal site
        | Run.indexOutOfRange => Run.indexOutOfRange
        | Run.outOfFuel => Run.outOfFuel

/-! ## Vocabulary of the statements about `pkg/local.go` -/

/-- The 16-byte `net.IP` of the IPv4 address with 32-bit value `n`. -/
def ip16 (n : Nat) : Bytes := ⟨16, 281470681743360 + n⟩

/-- The text `a.b.c.d/p` of a seed with 32-bit value `s` and prefix length `p`. -/
def cidrText (s p : Nat) : String := ⟨string4 s⟩ ++ "/" ++ Itoa (p : Int)

/-- The 32-bit value `a` with all but its high `p` bits cleared. -/
def networkOf (a p : Nat) : Nat := a / 2 ^ (32 - p) * 2 ^ (32 - p)

/-- The highest 32-bit value whose high `p` bits are those of `a`. -/
def lastOf (a p : Nat) : Nat := networkOf a p + (2 ^ (32 - p) - 1)

/-- The number a text of decimal digits spells. -/
def decimalValue (s : List Char) : Nat := s.foldl (fun a c => a * 10 + digitVal c) 0

/-- The inputs `net.ParseCIDR` has to reject, stated on the text: no `/`; or, with
`seed` the text before the first `/` and `pre` the text after it, a seed that is
no IPv4 or IPv6 literal, a seed with a zone, an empty `pre`, a `pre` with a character
that is no decimal digit, or a `pre` above the bit length of the seed. -/
def malformedCIDR (addr : String) : Prop :=
  '/' ∉ addr.data ∨
  ∃ seed pre : List Char, addr.data = seed ++ '/' :: pre ∧ '/' ∉ seed ∧
    (ParseAddr ⟨seed⟩ = none ∨
      ∃ a, ParseAddr ⟨seed⟩ = some a ∧
        (a.Zone ≠ "" ∨ pre = [] ∨ (∃ c ∈ pre, isDigit c = false) ∨
          decimalValue pre > a.BitLen))

/-! ## `strings`, `fmt` as used by `pkg/scanner.go` -/

/-- Go `unicode.IsSpace`. -/
def isSpace (c : Char) : Bool :=
  decide (c.toNat ∈ [9, 10, 11, 12, 13, 32, 133, 160, 5760, 8232, 8233, 8239, 8287, 12288]) ||
    (decide (8192 ≤ c.toNat) && decide (c.toNat ≤ 8202))

/-- Loop of Go `strings.Fields`: `cur` is the field being read. -/
def fieldsLoop : List Char → List Char → List (List Char)
  | [], cur => if cur = [] then [] else [cur]
  | c :: rest, cur =>
    if isSpace c then (if cur = [] then fieldsLoop rest [] else cur :: fieldsLoop rest [])
    else fieldsLoop rest (cur ++ [c])

/-- Go `strings.Fields`: the maximal runs of characters that are not white space. -/
def Fields (s : String) : List String := (fieldsLoop s.data []).map String.mk

/-- Go `strings.Join`: the first element, then the separator and the element for
each further one. -/
def Join (elems : List String) (sep : String) : String :=
  match elems with
  | [] => ""
  | a :: rest => ⟨a.data ++ (rest.map (fun e => sep.data ++ e.data)).flatten⟩

/-- Go `strings.TrimLeft` on characters. -/
def trimLeft (cutset : List Char) : List Char → List Char
  | [] => []
  | c :: cs => if c ∈ cutset then trimLeft cutset cs else c :: cs

/-- Go `strings.Trim`: drops the leading and trailing characters that are in `cutset`. -/
def Trim (s cutset : String) : String :=
  ⟨(trimLeft cutset.data (trimLeft cutset.data s.data).reverse).reverse⟩

/-- Go `fmt.Sprint` of one `[]int`: the elements in decimal between brackets,
separated by one space. -/
def Sprint (xs : List Int) : String := "[" ++ Join (xs.map Itoa) " " ++ "]"

/-! ## `pkg/scanner.go` -/

/-- Go `Host`. -/
structure Host where
  Fqdn : String
  IpAddress : String
  PingResponse : Bool
  ListeningPorts : List Int
  PortString : String
  Id : Int
  deriving DecidableEq, Repr

/-- The network as `PortWalk` sees it: whether the `i`-th call of `net.DialTimeout`
in a walk, to the given address and port, returns without error. -/
abbrev Dialer := Nat → String → Int → Bool

/-- Go `singlePortScan`, with the outcome of its `net.DialTimeout` given. -/
def singlePortScan (connected : Bool) (port : Int) : Int :=
  if connected = false then 0 else port

/-- Loop of Go `PortWalk` from index `i` with `out` collected so far. -/
def portWalkLoop (dial : Dialer) (addr : String) : List Int → Nat → List Int → List Int
  | [], _, out => out
  | port :: rest, i, out =>
    if singlePortScan (dial i addr port) port ≠ 0
    then portWalkLoop dial addr rest (i + 1) (out ++ [singlePortScan (dial i addr port) port])
    else portWalkLoop dial addr rest (i + 1) out

/-- Go `PortWalk`. -/
def PortWalk (dial : Dialer) (addr : String) (ports : List Int) : List Int :=
  portWalkLoop dial addr ports 0 []

/-- The `PortString` expression of Go `NetSweep`. -/
def PortString (portscanned : List Int) : String :=
  Trim (Join (Fields (Sprint portscanned)) ",") "[]"

/-- The ports of a walk whose connect attempt succeeded, in list order. -/
def connectedPorts (dial : Dialer) (addr : String) (ports : List Int) : List Int :=
  ((ports.enum).filter (fun ip => dial ip.1 addr ip.2)).map Prod.snd

/-! ## Vocabulary of the statements about `pkg/scanner.go` -/

/-- A character of the decimal text of an integer: a digit or the minus sign. -/
def plainChar (c : Char) : Prop := c = '-' ∨ ∃ d, d < 10 ∧ c = digitChar d

/-- What `strings.Fields` returns on words separated by single spaces and closed by
`]`, when the field `c` is being read: `c`, the words but the last, and the last word
with the `]`. -/
def fieldsOut (c : List Char) : List (List Char) → List (List Char)
  | [] => [c ++ [']']]
  | u :: us => c :: fieldsOut u us

/-! ## `pkg/storage.go` and the reconciliation loop of `pkg/webserver.go` -/

/-- The error values of `pkg/storage.go`, and any other error a store may return. -/
inductive DbErr where
  | ErrDuplicate
  | ErrNotExists
  | ErrUpdateFailed
  | ErrDeleteFailed
  | other (msg : String)
  deriving DecidableEq, Repr

/-- Go interface `TopologyDatabaseIO`, the three methods the reconciliation uses.
A method takes the state of the store and returns, with the new state, either a
record (`err == nil`) or an error. -/
structure TopologyDatabaseIO (σ : Type) where
  Create : Host → σ → Except DbErr Host × σ
  GetByIP : String → σ → Except DbErr Host × σ
  Update : Int → Host → σ → Except DbErr Host × σ

/-- A call of a method of the store, with its arguments. -/
inductive DbCall where
  | GetByIP (ip : String)
  | Create (host : Host)
  | Update (id : Int) (updated : Host)
  deriving DecidableEq, Repr

/-- What one round of the reconciliation loop did: the store calls in order, the
state of the store afterwards, and the `log.Fatal` message if the round ended the
process. -/
structure Reconciled (σ : Type) where
  calls : List DbCall
  store : σ
  fatal : Option String
  deriving DecidableEq, Repr

/-- Body of the `for x := range scanned` loop in Go `ExecutionHandler.ServeHTTP`
(the rendering of the table entry and the prints do not touch the store and are
left out). -/
def reconcileStep {σ : Type} (db : TopologyDatabaseIO σ) (x : Host) (s : σ) : Reconciled σ :=
  if x.ListeningPorts.length > 0 then
    match db.GetByIP x.IpAddress s with
    | (Except.error err, s1) =>
      if err ≠ DbErr.ErrNotExists then
        ⟨[DbCall.GetByIP x.IpAddress], s1, some " Couldnt access the database. Fatal error.\n"⟩
      else
        match db.Create x s1 with
        | (Except.error _, s2) =>
          ⟨[DbCall.GetByIP x.IpAddress, DbCall.Create x], s2,
            some " Fatal error trying to read the database.\n"⟩
        | (Except.ok _, s2) => ⟨[DbCall.GetByIP x.IpAddress, DbCall.Create x], s2, none⟩
    | (Except.ok host, s1) =>
      match db.Update host.Id x s1 with
      | (Except.error _, s2) =>
        ⟨[DbCall.GetByIP x.IpAddress, DbCall.Update host.Id x], s2,
          some " fatal error when updating a record.\n"⟩
      | (Except.ok _, s2) => ⟨[DbCall.GetByIP x.IpAddress, DbCall.Update host.Id x], s2, none⟩
  else ⟨[], s, none⟩

/-- A row of the table `hosts` of Go `SQLiteRepo.Migrate`. -/
structure Row where
  id : Int
  fqdn : String
  ipv4_address : String
  listening_port : String
  deriving DecidableEq, Repr

/-- State of the SQLite table `hosts`: its rows and the largest id handed out so far
(`AUTOINCREMENT`). -/
structure Table where
  rows : List Row
  seq : Int
  deriving DecidableEq, Repr

/-- The `Host` that `row.Scan` fills from a row. -/
def Row.toHost (r : Row) : Host :=
  { Fqdn := r.fqdn, IpAddress := r.ipv4_address, PingResponse := false, ListeningPorts := [],
    PortString := r.listening_port, Id := r.id }

/-- Go `SQLiteRepo.Create`: the `INSERT`, refused when the address is already in the
table (`UNIQUE`). -/
def SQLiteRepo.Create (host : Host) (t : Table) : Except DbErr Host × Table :=
  if t.rows.any (fun r => r.ipv4_address = host.IpAddress) then (Except.error DbErr.ErrDuplicate, t)
  else
    (Except.ok { host with Id := t.seq + 1 },
      { rows := t.rows ++ [⟨t.seq + 1, host.Fqdn, host.IpAddress, host.PortString⟩],
        seq := t.seq + 1 })

/-- Go `SQLiteRepo.GetByIP`: the `SELECT` by address. -/
def SQLiteRepo.GetByIP (ip : String) (t : Table) : Except DbErr Host × Table :=
  match t.rows.find? (fun r => r.ipv4_address = ip) with
  | none => (Except.error DbErr.ErrNotExists, t)
  | some r => (Except.ok r.toHost, t)

/-- Go `SQLiteRepo.Update`: the `UPDATE` by id, refused for id 0, for an address that
another row holds (`UNIQUE`) and when no row has the id. -/
def SQLiteRepo.Update (id : Int) (updated : Host) (t : Table) : Except DbErr Host × Table :=
  if id = 0 then (Except.error (DbErr.other "invalid updated ID"), t)
  else if t.rows.any (fun r => r.id = id) = false then (Except.error DbErr.ErrUpdateFailed, t)
  else if t.rows.any (fun r => r.id ≠ id ∧ r.ipv4_address = updated.IpAddress) then
    (Except.error (DbErr.other "UNIQUE constraint failed: hosts.ipv4_address"), t)
  else
    (Except.ok updated,
      { t with rows := t.rows.map (fun r =>
          if r.id = id then ⟨r.id, updated.Fqdn, updated.IpAddress, updated.PortString⟩ else r) })

/-- Go `SQLiteRepo` as a `TopologyDatabaseIO`. -/
def SQLiteRepo : TopologyDatabaseIO Table :=
  { Create := SQLiteRepo.Create, GetByIP := SQLiteRepo.GetByIP, Update := SQLiteRepo.Update }

/-- A store whose lookup fails with an error other than "row not exists". -/
def brokenRepo : TopologyDatabaseIO Table :=
  { Create := SQLiteRepo.Create,
    GetByIP := fun _ t => (Except.error (DbErr.other "database is locked"), t),
    Update := SQLiteRepo.Update }

/-- A scan result with two open ports, used in examples. -/
def gatewayHost : Host := ⟨"gw.lan", "10.0.0.7", false, [80, 8080], "80,8080", 0⟩

/-- The table after `gatewayHost` was created in the empty table. -/
def gatewayTable : Table := ⟨[⟨1, "gw.lan", "10.0.0.7", "80,8080"⟩], 1⟩

/-! ## `NetSweep`: the goroutines, the wait group and the channel

`NetSweep` is modelled as a transition system.  One step is one statement of the
main goroutine (`wg.Add(1)`, the `go` statement, `wg.Wait()`, `close(scanned)`) or of
one task goroutine (the send of its `Host`, the deferred `wgrp.Done()`); a schedule is
the list of the goroutines that take the steps, in any interleaving.  The channel is
unbuffered: a send is one step, taken together with the receive of the consumer.  A
consumer that is slow to receive is a schedule that takes the send later; that some
goroutine can always take a step assumes a consumer that receives in the end. -/

/-- The resolver as `getFqdn` sees it: the names of an address, `none` for an error. -/
abbrev Resolver := String → Option (List String)

/-- Go `getFqdn`, with the outcome of its `net.LookupAddr` given. -/
def getFqdn (lookup : Resolver) (ip : String) : String :=
  match lookup ip with
  | none => "not found with default resolver"
  | some names => Join names ", "

/-- The `Host` the task goroutine of `NetSweep` sends for `target`. -/
def sweepHost (dial : Dialer) (lookup : Resolver) (ports : List Int) (target : String) : Host :=
  { Fqdn := getFqdn lookup target, IpAddress := target, PingResponse := false,
    ListeningPorts := PortWalk dial target ports,
    PortString := PortString (PortWalk dial target ports), Id := 0 }

/-- Where a task goroutine of `NetSweep` stands: before its send, between the send and
the deferred `wgrp.Done()`, or after it. -/
inductive TaskPc where
  | scanning
  | sent
  | finished
  deriving DecidableEq, Repr

/-- A task goroutine: its `target` argument and where it stands. -/
structure Task where
  target : String
  pc : TaskPc
  deriving DecidableEq, Repr

/-- Where the main goroutine of `NetSweep` stands: at the head of the loop with index
`i`, between `wg.Add(1)` and the `go` statement, in `wg.Wait()`, before
`close(scanned)`, or returned. -/
inductive MainPc where
  | loop (i : Nat)
  | spawn (i : Nat)
  | wait
  | close
  | returned
  deriving DecidableEq, Repr

/-- State of a run of `NetSweep`: the goroutines, the counter of the wait group, the
values sent on the channel so far, whether the channel is closed, how often it was
closed, and whether a step panicked (send on or close of a closed channel, negative
counter). -/
structure Sweep where
  main : MainPc
  tasks : List Task
  wg : Int
  scanned : List Host
  closed : Bool
  closes : Nat
  panicked : Bool
  deriving DecidableEq, Repr

/-- The goroutine that takes a step. -/
inductive Action where
  | main
  | send (j : Nat)
  | done (j : Nat)
  deriving DecidableEq, Repr

/-- Moves the `j`-th task from `src` to `dst`; `none` when there is no such task or
it does not stand at `src`. -/
def advance (src dst : TaskPc) : Nat → List Task → Option (List Task)
  | _, [] => none
  | 0, t :: ts => if t.pc = src then some ({ t with pc := dst } :: ts) else none
  | j + 1, t :: ts => (advance src dst j ts).map (fun r => t :: r)

/-- The state in which `NetSweep` starts. -/
def Sweep.init : Sweep :=
  { main := MainPc.loop 0, tasks := [], wg := 0, scanned := [], closed := false, closes := 0,
    panicked := false }

/-- One step of Go `NetSweep`; `none` when the goroutine cannot take a step (it is
blocked, has ended or does not exist). -/
def NetSweep.step (mkHost : String → Host) (ips : List Bytes) : Action → Sweep → Option Sweep
  | Action.main, s =>
    match s.main with
    | MainPc.loop i =>
      if i < ips.length then some { s with main := MainPc.spawn i, wg := s.wg + 1 }
      else some { s with main := MainPc.wait }
    | MainPc.spawn i =>
      match ips[i]? with
      | none => none
      | some ip =>
        some { s with main := MainPc.loop (i + 1),
                      tasks := s.tasks ++ [{ target := ipString ip, pc := TaskPc.scanning }] }
    | MainPc.wait => if s.wg = 0 then some { s with main := MainPc.close } else none
    | MainPc.close =>
      some { s with main := MainPc.returned, closed := true, closes := s.closes + 1,
                    panicked := s.panicked || s.closed }
    | MainPc.returned => none
  | Action.send j, s =>
    match s.tasks[j]?, advance TaskPc.scanning TaskPc.sent j s.tasks with
    | some t, some ts =>
      some { s with tasks := ts, scanned := s.scanned ++ [mkHost t.target],
                    panicked := s.panicked || s.closed }
    | _, _ => none
  | Action.done j, s =>
    match advance TaskPc.sent TaskPc.finished j s.tasks with
    | some ts => some { s with tasks := ts, wg := s.wg - 1,
                               panicked := s.panicked || decide (s.wg - 1 < 0) }
    | none => none

/-- Runs a schedule; `none` when a scheduled goroutine cannot take its step. -/
def NetSweep.run (mkHost : String → Host) (ips : List Bytes) : List Action → Sweep → Option Sweep
  | [], s => some s
  | a :: rest, s =>
    match NetSweep.step mkHost ips a s with
    | none => none
    | some s1 => NetSweep.run mkHost ips rest s1

/-- The values `NetSweep` has to publish: one `Host` per address, made by `mkHost`
from the text of the address. -/
def sweepHosts (mkHost : String → Host) (ips : List Bytes) : List Host :=
  ips.map (fun ip => mkHost (ipString ip))

/-- Number of task goroutines that have called `wgrp.Done()`. -/
def finishedCount (ts : List Task) : Nat := ts.countP (fun t => decide (t.pc = TaskPc.finished))

/-- The values sent by the task goroutines that are past their send, in task order. -/
def delivered (mkHost : String → Host) (ts : List Task) : List Host :=
  (ts.filter (fun t => decide (t.pc ≠ TaskPc.scanning))).map (fun t => mkHost t.target)

/-- What holds in every state of a run of `NetSweep`: no panic; the tasks started so
far are those of the first addresses; the channel carried the values of exactly the
tasks past their send; and the counter of the wait group, the channel and the main
goroutine agree. -/
def Sweep.Inv (mkHost : String → Host) (ips : List Bytes) (s : Sweep) : Prop :=
  s.panicked = false ∧
  s.tasks.map Task.target = (ips.take s.tasks.length).map ipString ∧
  List.Perm s.scanned (delivered mkHost s.tasks) ∧
  (match s.main with
    | MainPc.loop i =>
      s.tasks.length = i ∧ i ≤ ips.length ∧ s.wg = (i : Int) - finishedCount s.tasks ∧
        s.closed = false ∧ s.closes = 0
    | MainPc.spawn i =>
      s.tasks.length = i ∧ i < ips.length ∧ s.wg = (i : Int) + 1 - finishedCount s.tasks ∧
        s.closed = false ∧ s.closes = 0
    | MainPc.wait =>
      s.tasks.length = ips.length ∧ s.wg = (ips.length : Int) - finishedCount s.tasks ∧
        s.closed = false ∧ s.closes = 0
    | MainPc.close =>
      s.tasks.length = ips.length ∧ finishedCount s.tasks = ips.length ∧ s.wg = 0 ∧
        s.closed = false ∧ s.closes = 0
    | MainPc.returned =>
      s.tasks.length = ips.length ∧ finishedCount s.tasks = ips.length ∧
        s.closed = true ∧ s.closes = 1)

/-- Steps a task goroutine still has to take. -/
def Task.stepsLeft (t : Task) : Nat :=
  match t.pc with
  | TaskPc.scanning => 2
  | TaskPc.sent => 1
  | TaskPc.finished => 0

/-- Steps still to be taken from a state: the rest of the main goroutine and of
every task goroutine, those not yet started included. -/
def Sweep.stepsLeft (n : Nat) (s : Sweep) : Nat :=
  (match s.main with
    | MainPc.loop i => 4 * (n - i) + 3
    | MainPc.spawn i => 4 * (n - i) + 2
    | MainPc.wait => 2
    | MainPc.close => 1
    | MainPc.returned => 0) +
  (s.tasks.map Task.stepsLeft).sum

/-- A network in which port 80 is open on every host; used in examples. -/
def webOnly : Dialer := fun _ _ p => decide (p = 80)

/-- A resolver that knows no name; used in examples. -/
def noNames : Resolver := fun _ => none

/-- The addresses 192.168.1.1, 192.168.1.2 and 192.168.1.3; used in examples. -/
def threeIps : List Bytes := [ip16 3232235777, ip16 3232235778, ip16 3232235779]

/-- A schedule of `NetSweep` over three addresses in which the second task sends
before the third task is started, and the first task sends last. -/
def scrambledSchedule : List Action :=
  [Action.main, Action.main, Action.main, Action.main, Action.send 1, Action.main, Action.main,
    Action.main, Action.done 1, Action.send 2, Action.send 0, Action.done 0, Action.done 2,
    Action.main, Action.main]

/-- The state `scrambledSchedule` ends in. -/
def scrambledEnd : Sweep :=
  { main := MainPc.returned,
    tasks := [⟨"192.168.1.1", TaskPc.finished⟩, ⟨"192.168.1.2", TaskPc.finished⟩,
      ⟨"192.168.1.3", TaskPc.finished⟩],
    wg := 0,
    scanned := [⟨"not found with default resolver", "192.168.1.2", false, [80], "80", 0⟩,
      ⟨"not found with default resolver", "192.168.1.3", false, [80], "80", 0⟩,
      ⟨"not found with default resolver", "192.168.1.1", false, [80], "80", 0⟩],
    closed := true, closes := 1, panicked := false }

/-- The `for x := range scanned` loop of Go `ExecutionHandler.ServeHTTP` over the
results in the order they are received: the rounds one after the other; a round that
ends the process ends the loop, and the results after it are not consumed. -/
def reconcileLoop {σ : Type} (db : TopologyDatabaseIO σ) : List Host → σ → Reconciled σ
  | [], s => ⟨[], s, none⟩
  | x :: rest, s =>
    match (reconcileStep db x s).fatal with
    | some msg => ⟨(reconcileStep db x s).calls, (reconcileStep db x s).store, some msg⟩
    | none =>
      ⟨(reconcileStep db x s).calls ++ (reconcileLoop db rest (reconcileStep db x s).store).calls,
        (reconcileLoop db rest (reconcileStep db x s).store).store,
        (reconcileLoop db rest (reconcileStep db x s).store).fatal⟩

/-- What SQLite keeps true of the table `hosts`: the ids are positive and at most the
largest id handed out (`AUTOINCREMENT`), no two rows share an id (`PRIMARY KEY`) or an
address (`UNIQUE`). -/
def Table.WF (t : Table) : Prop :=
  0 ≤ t.seq ∧ (∀ r ∈ t.rows, 0 < r.id ∧ r.id ≤ t.seq) ∧
    t.rows.Pairwise (fun a b => a.id ≠ b.id) ∧
    t.rows.Pairwise (fun a b => a.ipv4_address ≠ b.ipv4_address)

/-- The rows of a table with the address `ip`. -/
def Table.rowsOf (t : Table) (ip : String) : List Row :=
  t.rows.filter (fun r => decide (r.ipv4_address = ip))

/-- The SQLite store shared with a second handler that creates `other` right after
each lookup of this handler (two requests being reconciled at the same time). -/
def sharedRepo (other : Host) : TopologyDatabaseIO Table :=
  { Create := SQLiteRepo.Create,
    GetByIP := fun ip t => ((SQLiteRepo.GetByIP ip t).1, (SQLiteRepo.Create other t).2),
    Update := SQLiteRepo.Update }

/-- A second sighting of the host of `gatewayHost` with another set of open ports. -/
def gatewayHostLater : Host := ⟨"gw.lan", "10.0.0.7", false, [22, 443], "22,443", 0⟩

/-- A scan result without open ports; used in examples. -/
def silentHost : Host := ⟨"not found with default resolver", "10.0.0.9", false, [], "", 0⟩

/-- A table with one record, of another host; used in examples. -/
def nasTable : Table := ⟨[⟨1, "nas.lan", "10.0.0.3", "445"⟩], 1⟩

/-! ## `ExecutionHandler.ServeHTTP` -/

/-- Go `ScanRequest`. -/
structure ScanRequest where
  IpAddress : String
  deriving DecidableEq, Repr

/-- Go `RetrieveScanDirectives`. -/
def RetrieveScanDirectives : List Int := [22, 80, 443, 8080, 4379, 445, 53, 153, 27017]

/-- What Go `ExecutionHandler.ServeHTTP` writes to the response: the message
`There was an error processing your request: ...` for a body that cannot be read or
decoded, the same message for an error of `GetNetworkAddresses`, and the table entry
the consumer renders for a host. -/
inductive Reply where
  | requestError (msg : String)
  | processingError (err : Err)
  | tableEntry (x : Host)
  deriving DecidableEq, Repr

/-- Go `ExecutionHandler.ServeHTTP` up to its call of `NetSweep`: what it has written
to the response, and the address list it hands to `NetSweep` (`none` when it returns
before that call). -/
structure Handled where
  written : List Reply
  sweep : Option (List Bytes)
  deriving DecidableEq, Repr

/-- Go `ExecutionHandler.ServeHTTP` up to its call of `NetSweep`.  `body` is the
outcome of `io.ReadAll` and `json.Unmarshal`: the decoded request or the error
message.  After an error of `GetNetworkAddresses` the message is written and the
handler goes on (there is no `return` in that branch). -/
def ExecutionHandler.ServeHTTP (fuel : Nat) (body : Except String ScanRequest) : Run Handled :=
  match body with
  | Except.error msg => Run.done ⟨[Reply.requestError msg], none⟩
  | Except.ok input =>
    match GetNetworkAddresses fuel input.IpAddress with
    | Run.done (subnetMap, some err) =>
      Run.done ⟨[Reply.processingError err], some subnetMap.Ipv4s⟩
    | Run.done (subnetMap, none) => Run.done ⟨[], some subnetMap.Ipv4s⟩
    | Run.fatal site => Run.fatal site
    | Run.indexOutOfRange => Run.indexOutOfRange
    | Run.outOfFuel => Run.outOfFuel

/-! ## `bitsToMask` of `pkg/local.go` -/

/-- Go `powerInt`: `int(math.Pow(float64(x), float64(y)))`.  The calls that occur have
`x = 2` and `0 ≤ y ≤ 7`, for which the floating-point power is the exact integer. -/
def powerInt (x : Int) (y : Nat) : Int := x ^ y

/-- Go `base2to10`: the first loop scales `bits[i]` by `2 ^ (len(bits) - 1 - i)`, the
second loop sums the scaled values. -/
def base2to10 (bits : List Int) : Int :=
  ((bits.enum).map (fun ib => ib.2 * powerInt 2 (bits.length - 1 - ib.1))).foldl (· + ·) 0

/-- Go `bitsToMask`.  `none` stands for slice expressions that reach beyond the length
of `bitmask` (fewer than 32 entries); what Go does then depends on the capacity of the
slice and is not modelled.  The four slices do not overlap, so that `base2to10`
overwrites the entries it was given does not show. -/
def bitsToMask (ones bits : Int) : Option String :=
  let bitmask : List Int := List.replicate ones.toNat 1 ++ List.replicate (bits - ones).toNat 0
  if bitmask.length < 32 then none
  else
    some (Join [Itoa (base2to10 (bitmask.take 8)), Itoa (base2to10 ((bitmask.drop 8).take 8)),
      Itoa (base2to10 ((bitmask.drop 16).take 8)), Itoa (base2to10 ((bitmask.drop 24).take 8))]
      ".")

/-! ## `AssetHandler.ServeHTTP`: the content type -/

/-- Whether `sub` occurs in the text at some position. -/
def containsChars (sub : List Char) : List Char → Bool
  | [] => sub.isPrefixOf []
  | c :: cs => sub.isPrefixOf (c :: cs) || containsChars sub cs

/-- Go `strings.Contains`. -/
def Contains (s substr : String) : Bool := containsChars substr.data s.data

/-- The `switch` of Go `AssetHandler.ServeHTTP` that chooses `ctype` from `fname`. -/
def AssetHandler.ctype (fname : String) : String :=
  if Contains fname "css" then "text/css"
  else if Contains fname "js" then "text/javascript"
  else if Contains fname "html" then "text/html"
  else if Contains fname "json" then "application/json"
  else if Contains fname "png" then "image/png"
  else "text"

/-- The text of `pos` octets, each followed by a dot: the octets are the base-256
digits of `acc`. -/
def dottedOctets : Nat → Nat → List Char
  | 0, _ => []
  | pos + 1, acc => dottedOctets pos (acc / 256) ++ (appendDecimal (acc % 256) ++ ['.'])

/-- The digits `parseIPv4Loop` has read of the octet it is reading. -/
def octetRead (val digLen : Nat) : List Char := if digLen = 0 then [] else appendDecimal val

/-- The `log.Fatal` message of a round after a call of the store: `msg` when the call
returned an error, none when it returned a record. -/
def fatalIfError (r : Except DbErr Host) (msg : String) : Option String :=
  match r with
  | Except.error _ => some msg
  | Except.ok _ => none

/-- The store `db` with a log of its calls: each method applies the method of `db` to
the state and appends the call, with its arguments, to the log. -/
def recording {σ : Type} (db : TopologyDatabaseIO σ) : TopologyDatabaseIO (σ × List DbCall) :=
  { Create := fun host st =>
      ((db.Create host st.1).1, ((db.Create host st.1).2, st.2 ++ [DbCall.Create host])),
    GetByIP := fun ip st =>
      ((db.GetByIP ip st.1).1, ((db.GetByIP ip st.1).2, st.2 ++ [DbCall.GetByIP ip])),
    Update := fun id updated st =>
      ((db.Update id updated st.1).1,
        ((db.Update id updated st.1).2, st.2 ++ [DbCall.Update id updated])) }

/-- The table after the second sighting `gatewayHostLater` updated the record of
`gatewayTable`. -/
def gatewayTableLater : Table := ⟨[⟨1, "gw.lan", "10.0.0.7", "22,443"⟩], 1⟩

/-! # Theorems -/

/-! ## Decimal text and dotted quads -/

theorem isDigit_digitChar (d : Nat) (h : d < 10) : isDigit (digitChar d) = true := by
  interval_cases d <;> decide

theorem digitVal_digitChar (d : Nat) (h : d < 10) : digitVal (digitChar d) = d := by
  interval_cases d <;> decide

theorem digitChar_ne_dot (d : Nat) (h : d < 10) : digitChar d ≠ '.' := by
  interval_cases d <;> decide

theorem digitChar_ne_slash (d : Nat) (h : d < 10) : digitChar d ≠ '/' := by
  interval_cases d <;> decide

theorem digitChar_ne_colon (d : Nat) (h : d < 10) : digitChar d ≠ ':' := by
  interval_cases d <;> decide

theorem digitChar_ne_percent (d : Nat) (h : d < 10) : digitChar d ≠ '%' := by
  interval_cases d <;> decide

theorem isDigit_dot : isDigit '.' = false := by decide

/-- One digit step of `parseIPv4Loop`. -/
theorem parseIPv4Loop_digit (d : Nat) (h : d < 10) (rest : List Char) (prev : Option Char)
    (val digLen pos acc : Nat) (hz : ¬ (digLen = 1 ∧ val = 0)) (hv : val * 10 + d ≤ 255) :
    parseIPv4Loop (digitChar d :: rest) prev val digLen pos acc =
      parseIPv4Loop rest (some (digitChar d)) (val * 10 + d) (digLen + 1) pos acc := by
  rw [parseIPv4Loop]
  simp only [isDigit_digitChar d h, digitVal_digitChar d h, if_true, if_neg hz]
  rw [if_neg (by omega)]

theorem appendDecimal_ne_nil (o : Nat) : appendDecimal o ≠ [] := by
  simp [appendDecimal]

/-- Reading the last octet of a dotted quad. -/
theorem parseIPv4Loop_last (o : Nat) (h : o < 256) (prev : Option Char) (acc : Nat) :
    parseIPv4Loop (appendDecimal o) prev 0 0 3 acc = some (acc * 256 + o) := by
  unfold appendDecimal
  by_cases h100 : 100 ≤ o
  · have h10 : 10 ≤ o := by omega
    simp only [if_pos h100, if_pos h10, List.singleton_append, List.cons_append, List.nil_append]
    rw [parseIPv4Loop_digit _ (by omega) _ _ _ _ _ _ (by omega) (by omega),
      parseIPv4Loop_digit _ (by omega) _ _ _ _ _ _ (by omega) (by omega),
      parseIPv4Loop_digit _ (by omega) _ _ _ _ _ _ (by omega) (by omega)]
    simp only [parseIPv4Loop]
    rw [if_neg (by omega)]
    congr 1; omega
  · by_cases h10 : 10 ≤ o
    · simp only [if_neg h100, if_pos h10, List.singleton_append, List.nil_append]
      rw [parseIPv4Loop_digit _ (by omega) _ _ _ _ _ _ (by omega) (by omega),
        parseIPv4Loop_digit _ (by omega) _ _ _ _ _ _ (by omega) (by omega)]
      simp only [parseIPv4Loop]
      rw [if_neg (by omega)]
      congr 1; omega
    · simp only [if_neg h100, if_neg h10, List.nil_append]
      rw [parseIPv4Loop_digit _ (by omega) _ _ _ _ _ _ (by omega) (by omega)]
      simp only [parseIPv4Loop]
      rw [if_neg (by omega)]
      congr 1; omega

/-- The `.` step of `parseIPv4Loop` after a digit. -/
theorem parseIPv4Loop_dot (d : Nat) (h : d < 10) (r : List Char) (hr : r ≠ [])
    (val digLen pos acc : Nat) (hp : pos < 3) :
    parseIPv4Loop ('.' :: r) (some (digitChar d)) val digLen pos acc =
      parseIPv4Loop r (some '.') 0 0 (pos + 1) (acc * 256 + val) := by
  have hd : digitChar d ≠ '.' := digitChar_ne_dot d h
  rw [parseIPv4Loop]
  simp only [isDigit_dot, Bool.false_eq_true, if_false, if_true]
  rw [if_neg (by simp [hr, hd]), if_neg (by omega)]

/-- Reading an octet that is followed by a dot and more text. -/
theorem parseIPv4Loop_octet (o : Nat) (h : o < 256) (prev : Option Char) (pos acc : Nat)
    (hp : pos < 3) (r : List Char) (hr : r ≠ []) :
    parseIPv4Loop (appendDecimal o ++ '.' :: r) prev 0 0 pos acc =
      parseIPv4Loop r (some '.') 0 0 (pos + 1) (acc * 256 + o) := by
  unfold appendDecimal
  by_cases h100 : 100 ≤ o
  · have h10 : 10 ≤ o := by omega
    simp only [if_pos h100, if_pos h10, List.singleton_append, List.cons_append, List.nil_append]
    rw [parseIPv4Loop_digit _ (by omega) _ _ _ _ _ _ (by omega) (by omega),
      parseIPv4Loop_digit _ (by omega) _ _ _ _ _ _ (by omega) (by omega),
      parseIPv4Loop_digit _ (by omega) _ _ _ _ _ _ (by omega) (by omega),
      parseIPv4Loop_dot _ (by omega) r hr _ _ _ _ hp]
    congr 1; omega
  · by_cases h10 : 10 ≤ o
    · simp only [if_neg h100, if_pos h10, List.singleton_append, List.cons_append,
        List.nil_append]
      rw [parseIPv4Loop_digit _ (by omega) _ _ _ _ _ _ (by omega) (by omega),
        parseIPv4Loop_digit _ (by omega) _ _ _ _ _ _ (by omega) (by omega),
        parseIPv4Loop_dot _ (by omega) r hr _ _ _ _ hp]
      congr 1; omega
    · simp only [if_neg h100, if_neg h10, List.nil_append, List.singleton_append]
      rw [parseIPv4Loop_digit _ (by omega) _ _ _ _ _ _ (by omega) (by omega),
        parseIPv4Loop_dot _ (by omega) r hr _ _ _ _ hp]
      congr 1; omega

/-- Parsing the dotted quad of a 32-bit number gives the number back. -/
theorem parseIPv4Fields_string4 (n : Nat) (h : n < 4294967296) :
    parseIPv4Fields (string4 n) = some n := by
  unfold parseIPv4Fields string4
  rw [parseIPv4Loop_octet _ (Nat.mod_lt _ (by norm_num)) _ _ _ (by norm_num) _
      (by simp [appendDecimal_ne_nil]),
    parseIPv4Loop_octet _ (Nat.mod_lt _ (by norm_num)) _ _ _ (by norm_num) _
      (by simp [appendDecimal_ne_nil]),
    parseIPv4Loop_octet _ (Nat.mod_lt _ (by norm_num)) _ _ _ (by norm_num) _
      (appendDecimal_ne_nil _),
    parseIPv4Loop_last _ (Nat.mod_lt _ (by norm_num))]
  congr 1; omega

/-- Every character of a decimal octet is a digit. -/
theorem appendDecimal_digits (o : Nat) (h : o < 256) :
    ∀ c ∈ appendDecimal o, ∃ d, d < 10 ∧ c = digitChar d := by
  intro c hc
  unfold appendDecimal at hc
  simp only [List.mem_append, List.mem_singleton] at hc
  rcases hc with (hc | hc) | hc
  · split at hc
    · simp only [List.mem_singleton] at hc
      exact ⟨_, by omega, hc⟩
    · simp at hc
  · split at hc
    · simp only [List.mem_singleton] at hc
      exact ⟨_, Nat.mod_lt _ (by norm_num), hc⟩
    · simp at hc
  · exact ⟨_, Nat.mod_lt _ (by norm_num), hc⟩

/-- Every character of a dotted quad is a digit or a dot. -/
theorem string4_chars (n : Nat) :
    ∀ c ∈ string4 n, c = '.' ∨ ∃ d, d < 10 ∧ c = digitChar d := by
  intro c hc
  unfold string4 at hc
  simp only [List.mem_append, List.mem_cons] at hc
  have hm : ∀ x : Nat, x % 256 < 256 := fun x => Nat.mod_lt _ (by norm_num)
  rcases hc with hc | hc | hc | hc | hc | hc | hc
  · exact Or.inr (appendDecimal_digits _ (hm _) c hc)
  · exact Or.inl hc
  · exact Or.inr (appendDecimal_digits _ (hm _) c hc)
  · exact Or.inl hc
  · exact Or.inr (appendDecimal_digits _ (hm _) c hc)
  · exact Or.inl hc
  · exact Or.inr (appendDecimal_digits _ (hm _) c hc)

theorem slash_not_mem_string4 (n : Nat) : '/' ∉ string4 n := by
  intro hc
  rcases string4_chars n _ hc with h | ⟨d, hd, h⟩
  · exact absurd h (by decide)
  · exact digitChar_ne_slash d hd h.symm

/-- The scan of `ParseAddr` passes digits and stops at the first dot. -/
theorem parseAddrScan_digits (whole pre r : List Char)
    (hpre : ∀ c ∈ pre, ∃ d, d < 10 ∧ c = digitChar d) :
    parseAddrScan whole (pre ++ '.' :: r) = (parseIPv4Fields whole).map Addr.v4 := by
  induction pre with
  | nil => simp [parseAddrScan]
  | cons c cs ih =>
    obtain ⟨d, hd, rfl⟩ := hpre c (List.mem_cons_self _ _)
    rw [List.cons_append, parseAddrScan, if_neg (digitChar_ne_dot d hd),
      if_neg (digitChar_ne_colon d hd), if_neg (digitChar_ne_percent d hd)]
    exact ih (fun c hc => hpre c (List.mem_cons_of_mem _ hc))

/-- `ParseAddr` reads the dotted quad of a 32-bit number back as that number. -/
theorem ParseAddr_string4 (n : Nat) (h : n < 4294967296) :
    ParseAddr ⟨string4 n⟩ = some (Addr.v4 n) := by
  unfold ParseAddr
  simp only
  have hs : parseAddrScan (string4 n) (string4 n) = (parseIPv4Fields (string4 n)).map Addr.v4 := by
    conv_lhs => rw [string4]
    exact parseAddrScan_digits _ _ _ (appendDecimal_digits _ (Nat.mod_lt _ (by norm_num)))
  rw [hs, parseIPv4Fields_string4 n h]
  rfl

/-- The dotted quad determines the number. -/
theorem string4_injective (a b : Nat) (ha : a < 4294967296) (hb : b < 4294967296)
    (h : string4 a = string4 b) : a = b := by
  have h1 := parseIPv4Fields_string4 a ha
  rw [h, parseIPv4Fields_string4 b hb] at h1
  exact (Option.some.inj h1).symm

theorem indexByte_append (c : Char) (l r : List Char) (h : c ∉ l) :
    indexByte c (l ++ c :: r) = some l.length := by
  induction l with
  | nil => simp [indexByte]
  | cons d ds ih =>
    have hd : d ≠ c := fun e => h (e ▸ List.mem_cons_self _ _)
    have hds : c ∉ ds := fun e => h (List.mem_cons_of_mem _ e)
    simp [indexByte, hd, ih hds]

theorem indexByte_none (c : Char) (l : List Char) (h : c ∉ l) : indexByte c l = none := by
  induction l with
  | nil => rfl
  | cons d ds ih =>
    have hd : d ≠ c := fun e => h (e ▸ List.mem_cons_self _ _)
    have hds : c ∉ ds := fun e => h (List.mem_cons_of_mem _ e)
    simp [indexByte, hd, ih hds]

theorem splitByte_append (c : Char) (l r : List Char) (h : c ∉ l) :
    splitByte c (l ++ c :: r) = l :: splitByte c r := by
  induction l with
  | nil => simp [splitByte]
  | cons d ds ih =>
    have hd : d ≠ c := fun e => h (e ▸ List.mem_cons_self _ _)
    have hds : c ∉ ds := fun e => h (List.mem_cons_of_mem _ e)
    simp [splitByte, hd, ih hds]

theorem splitByte_none (c : Char) (l : List Char) (h : c ∉ l) : splitByte c l = [l] := by
  induction l with
  | nil => rfl
  | cons d ds ih =>
    have hd : d ≠ c := fun e => h (e ▸ List.mem_cons_self _ _)
    have hds : c ∉ ds := fun e => h (List.mem_cons_of_mem _ e)
    simp [splitByte, hd, ih hds]

/-! ## Masks and prefixes -/

/-- And with a prefix mask clears the low `k` bits. -/
theorem land_cidrMask (n k : Nat) (hk : k ≤ 32) (hn : n < 4294967296) :
    n &&& (4294967296 - 2 ^ k) = n / 2 ^ k * 2 ^ k := by
  have e : (4294967296 : Nat) = 2 ^ 32 := by norm_num
  rw [e] at hn ⊢
  have hm : 2 ^ 32 - 2 ^ k = 2 ^ k * (2 ^ (32 - k) - 1) := by
    rw [Nat.mul_sub, ← Nat.pow_add, Nat.add_sub_cancel' hk, Nat.mul_one]
  rw [hm, Nat.mul_comm (n / 2 ^ k)]
  apply Nat.eq_of_testBit_eq
  intro i
  rw [Nat.testBit_and, Nat.testBit_mul_pow_two, Nat.testBit_mul_pow_two,
    Nat.testBit_two_pow_sub_one, ← Nat.shiftRight_eq_div_pow, Nat.testBit_shiftRight]
  by_cases hik : k ≤ i
  · rw [Nat.add_sub_cancel' hik]
    by_cases hi : i < 32
    · have : i - k < 32 - k := by omega
      simp [hik, this]
    · have hlt : n < 2 ^ i :=
        lt_of_lt_of_le hn (Nat.pow_le_pow_right (by norm_num) (by omega))
      simp [Nat.testBit_lt_two_pow hlt]
  · simp [hik]

/-- Text of a prefix length up to 32: read back by `dtoi` and `Atoi`, without `/`. -/
theorem prefix_text : ∀ p : Nat, p ≤ 32 →
    dtoi (Itoa (p : Int)).data = (p, (Itoa (p : Int)).data.length, true) ∧
    Atoi (Itoa (p : Int)) = some (p : Int) ∧ '/' ∉ (Itoa (p : Int)).data := by
  decide

/-- The 16-byte form of an IPv4 address, as `net.ParseCIDR` and `net.ParseIP` return it. -/
theorem As16_v4 (n : Nat) (h : n < 4294967296) :
    (Addr.v4 n).As16 = ⟨16, 281470681743360 + n⟩ := by
  simp [Addr.As16, Nat.mod_eq_of_lt h]

theorem ipString_16 (n : Nat) (h : n < 4294967296) :
    ipString ⟨16, 281470681743360 + n⟩ = ⟨string4 n⟩ := by
  have h1 : (281470681743360 + n) / 4294967296 = 65535 := by omega
  have h2 : (281470681743360 + n) % 4294967296 = n := by omega
  simp [ipString, To4, h1, h2]

theorem ipString_4 (n : Nat) : ipString ⟨4, n⟩ = ⟨string4 n⟩ := by
  simp [ipString, To4]

/-- Masking the 16-byte form of an IPv4 address with a 32-bit prefix mask. -/
theorem ipMask_16_cidr (n p : Nat) (h : n < 4294967296) (hp : p ≤ 32) :
    ipMask ⟨16, 281470681743360 + n⟩ (CIDRMask p 32) = ⟨4, n / 2 ^ (32 - p) * 2 ^ (32 - p)⟩ := by
  have h1 : (281470681743360 + n) / 4294967296 = 65535 := by omega
  have h2 : (281470681743360 + n) % 4294967296 = n := by omega
  have hc : CIDRMask p 32 = ⟨4, 2 ^ 32 - 2 ^ (32 - p)⟩ := by
    simp [CIDRMask, Nat.not_lt.mpr hp]
  rw [hc]
  simp only [ipMask, h1, h2]
  simp [land_cidrMask n (32 - p) (by omega) h]

theorem take_length_append (l r : List Char) (c : Char) : (l ++ c :: r).take l.length = l := by
  simp

theorem drop_length_append (l r : List Char) (c : Char) :
    (l ++ c :: r).drop (l.length + 1) = r := by
  induction l with
  | nil => rfl
  | cons d ds ih => simp

/-- `net.ParseCIDR` on the text `a.b.c.d/p`. -/
theorem ParseCIDR_v4 (n p : Nat) (h : n < 4294967296) (hp : p ≤ 32) :
    ParseCIDR (⟨string4 n⟩ ++ "/" ++ Itoa (p : Int)) =
      some (⟨16, 281470681743360 + n⟩,
        { IP := ⟨4, n / 2 ^ (32 - p) * 2 ^ (32 - p)⟩, Mask := CIDRMask p 32 }) := by
  obtain ⟨hd, -, -⟩ := prefix_text p hp
  have hdata : (⟨string4 n⟩ ++ "/" ++ Itoa (p : Int) : String).data =
      string4 n ++ '/' :: (Itoa (p : Int)).data := by
    simp [String.data_append]
  unfold ParseCIDR
  rw [hdata, indexByte_append _ _ _ (slash_not_mem_string4 n)]
  simp only [take_length_append, drop_length_append, ParseAddr_string4 n h]
  rw [hd]
  simp [Addr.Zone, Addr.BitLen, As16_v4 n h, ipMask_16_cidr n p h hp, Nat.not_lt.mpr hp]

/-! ## `getNextAddr`, `getNetwork` and `addressRecurse` on IPv4 text -/

theorem getNextAddr_string4 (n : Nat) (h : n + 1 < 4294967296) :
    getNextAddr ⟨string4 n⟩ = Run.done ⟨string4 (n + 1)⟩ := by
  have h1 : (n + 1) % 4294967296 ≠ 0 := by omega
  simp [getNextAddr, ParseAddr_string4 n (by omega), Addr.Next, h1, Addr.String]

theorem getNextAddr_max : getNextAddr ⟨string4 4294967295⟩ = Run.done "invalid IP" := by
  simp [getNextAddr, ParseAddr_string4 4294967295 (by norm_num), Addr.Next, Addr.String]

theorem getNetwork_string4 (n p : Nat) (h : n < 4294967296) (hp : p ≤ 32) :
    getNetwork ⟨string4 n⟩ (p : Int) = Run.done ⟨string4 (networkOf n p)⟩ := by
  simp only [getNetwork, ParseCIDR_v4 n p h hp, ipMask_16_cidr n p h hp, ipString_4, networkOf]

/-- The text of the zero `Addr` is no address: `getNetwork` ends the process on it. -/
theorem getNetwork_invalid (cidr : Int) : getNetwork "invalid IP" cidr = Run.fatal "getNetwork" := by
  have hdata : ("invalid IP" ++ "/" ++ Itoa cidr : String).data =
      "invalid IP".data ++ '/' :: (Itoa cidr).data := by
    simp [String.data_append]
  have hp : ParseCIDR ("invalid IP" ++ "/" ++ Itoa cidr) = none := by
    unfold ParseCIDR
    rw [hdata, indexByte_append _ _ _ (by decide)]
    simp only [take_length_append]
    have : ParseAddr ⟨"invalid IP".data⟩ = none := by decide
    rw [this]
  unfold getNetwork
  rw [hp]

theorem ParseIP_string4 (n : Nat) (h : n < 4294967296) : ParseIP ⟨string4 n⟩ = ip16 n := by
  simp [ParseIP, ParseAddr_string4 n h, Addr.Zone, As16_v4 n h, ip16]

/-- Whether the successor stays in the block of size `K` that holds `a`. -/
theorem succ_same_block (K a : Nat) (hK : 0 < K) :
    (a + 1) / K * K = a / K * K ↔ a % K + 1 < K := by
  have hr : a % K < K := Nat.mod_lt _ hK
  have ha : K * (a / K) + a % K = a := Nat.div_add_mod a K
  constructor
  · intro h
    by_contra hc
    have hr1 : a % K + 1 = K := by omega
    have h1 : a + 1 = (a / K + 1) * K := by
      rw [Nat.add_mul, Nat.one_mul, Nat.mul_comm]; omega
    rw [h1, Nat.mul_div_cancel _ hK, Nat.add_mul] at h
    omega
  · intro h
    have h1 : (a + 1) / K = a / K := by
      apply Nat.div_eq_of_lt_le
      · rw [Nat.mul_comm]; omega
      · rw [Nat.add_mul, Nat.one_mul, Nat.mul_comm]; omega
    rw [h1]
theorem succ_mod_block (K a : Nat) (hK : 0 < K) (h : a % K + 1 < K) :
    (a + 1) % K = a % K + 1 := by
  have h1 : (a + 1) / K * K = a / K * K := (succ_same_block K a hK).mpr h
  have h2 : K * (a / K) + a % K = a := Nat.div_add_mod a K
  have h3 : K * ((a + 1) / K) + (a + 1) % K = a + 1 := Nat.div_add_mod (a + 1) K
  rw [Nat.mul_comm] at h2 h3
  omega

theorem ipString_ip16 (n : Nat) (h : n < 4294967296) : ipString (ip16 n) = ⟨string4 n⟩ :=
  ipString_16 n h

theorem networkOf_le (a p : Nat) : networkOf a p ≤ a := Nat.div_mul_le_self a _

theorem mk_ne_of_ne (a b : List Char) (h : a ≠ b) : (⟨a⟩ : String) ≠ ⟨b⟩ := by
  intro e
  exact h (congrArg String.data e)

/-- The run of `addressRecurse` from a mapper whose last address has value `cur`, in a
network with `d` further addresses above `cur`: it needs `d + 1` calls, then returns
the mapper extended by those `d` addresses, or ends the process when the network
ends at 255.255.255.255. -/
theorem addressRecurse_v4 (p : Nat) (hp : p ≤ 32) (N : Nat) (c : Bytes) :
    ∀ (d cur : Nat) (pre : List Bytes) (fuel : Nat),
      cur + d < 4294967296 → networkOf cur p = N →
      d = 2 ^ (32 - p) - 1 - cur % 2 ^ (32 - p) →
      addressRecurse fuel
          { Ipv4s := pre ++ [ip16 cur], NetworkAddr := ⟨4, N⟩, Current := c, Mask := (p : Int) } =
        if fuel ≤ d then Run.outOfFuel
        else if cur + d + 1 < 4294967296 then
          Run.done { Ipv4s := pre ++ (List.range (d + 1)).map (fun i => ip16 (cur + i)),
                     NetworkAddr := ⟨4, N⟩, Current := c, Mask := (p : Int) }
        else Run.fatal "getNetwork" := by
  have hK : 0 < 2 ^ (32 - p) := Nat.two_pow_pos _
  intro d
  induction d with
  | zero =>
    intro cur pre fuel hb hN hd
    cases fuel with
    | zero => simp [addressRecurse]
    | succ f =>
      have hlast : (pre ++ [ip16 cur]).getLast? = some (ip16 cur) := by simp
      have hmod : ¬ (cur % 2 ^ (32 - p) + 1 < 2 ^ (32 - p)) := by
        have := Nat.mod_lt cur hK
        omega
      rw [addressRecurse]
      simp only [hlast, ipString_ip16 cur (by omega), ipString_4]
      by_cases hmax : cur + 1 < 4294967296
      · rw [getNextAddr_string4 cur hmax]
        simp only [getNetwork_string4 (cur + 1) p hmax hp]
        have hne : networkOf (cur + 1) p ≠ N := by
          rw [← hN]
          exact fun e => hmod ((succ_same_block _ cur hK).mp e)
        have hs : (⟨string4 (networkOf (cur + 1) p)⟩ : String) ≠ ⟨string4 N⟩ := by
          apply mk_ne_of_ne
          intro e
          refine hne (string4_injective _ _ ?_ ?_ e)
          · exact lt_of_le_of_lt (networkOf_le _ _) hmax
          · rw [← hN]; exact lt_of_le_of_lt (networkOf_le _ _) (by omega)
        simp [hs, hmax, List.range_succ]
      · have hcur : cur = 4294967295 := by omega
        subst hcur
        rw [getNextAddr_max]
        simp [getNetwork_invalid]
  | succ d ih =>
    intro cur pre fuel hb hN hd
    cases fuel with
    | zero => simp [addressRecurse]
    | succ f =>
      have hlast : (pre ++ [ip16 cur]).getLast? = some (ip16 cur) := by simp
      have hmod : cur % 2 ^ (32 - p) + 1 < 2 ^ (32 - p) := by omega
      have hmax : cur + 1 < 4294967296 := by omega
      have hnet : networkOf (cur + 1) p = N := by
        rw [← hN]; exact (succ_same_block _ cur hK).mpr hmod
      rw [addressRecurse]
      simp only [hlast, ipString_ip16 cur (by omega), ipString_4]
      rw [getNextAddr_string4 cur hmax]
      simp only [getNetwork_string4 (cur + 1) p hmax hp, hnet, ne_eq, not_true_eq_false,
        if_false, ParseIP_string4 (cur + 1) hmax]
      have hrec := ih (cur + 1) (pre ++ [ip16 cur]) f (by omega) hnet
        (by rw [succ_mod_block _ cur hK hmod]; omega)
      rw [hrec]
      have hlist : pre ++ [ip16 cur] ++ (List.range (d + 1)).map (fun i => ip16 (cur + 1 + i)) =
          pre ++ (List.range (d + 1 + 1)).map (fun i => ip16 (cur + i)) := by
        rw [List.range_succ_eq_map (d + 1), List.map_cons, List.map_map, List.append_assoc,
          List.singleton_append, Nat.add_zero]
        congr 2
        apply List.map_congr_left
        intro i _
        simp only [Function.comp, Nat.succ_eq_add_one]
        congr 1
        omega
      rw [hlist]
      have e1 : cur + 1 + d + 1 = cur + (d + 1) + 1 := by omega
      rw [e1]
      by_cases hf : f ≤ d
      · simp [hf]
      · simp [hf]

/-! ## `GetNetworkAddresses` on IPv4 text -/

theorem lastOf_lt (s p : Nat) (hs : s < 4294967296) (hp : p ≤ 32) :
    lastOf s p < 4294967296 := by
  have hK : 0 < 2 ^ (32 - p) := Nat.two_pow_pos _
  have h32 : (4294967296 : Nat) = 2 ^ (32 - p) * 2 ^ p := by
    rw [← Nat.pow_add, Nat.sub_add_cancel hp]
  have hq : s / 2 ^ (32 - p) < 2 ^ p := by
    apply Nat.div_lt_of_lt_mul
    rw [← h32]; exact hs
  have hmul : (s / 2 ^ (32 - p) + 1) * 2 ^ (32 - p) ≤ 2 ^ p * 2 ^ (32 - p) :=
    Nat.mul_le_mul_right _ hq
  rw [Nat.add_mul, Nat.one_mul, Nat.mul_comm (2 ^ p)] at hmul
  unfold lastOf networkOf
  omega

theorem lastOf_sub (s p : Nat) :
    lastOf s p - s = 2 ^ (32 - p) - 1 - s % 2 ^ (32 - p) ∧ s ≤ lastOf s p := by
  have hK : 0 < 2 ^ (32 - p) := Nat.two_pow_pos _
  have h1 := Nat.div_add_mod s (2 ^ (32 - p))
  have h2 := Nat.mod_lt s hK
  rw [Nat.mul_comm] at h1
  unfold lastOf networkOf
  omega

/-- The run of `GetNetworkAddresses` on the text `a.b.c.d/p` of a seed with value `s`:
with fuel for every address from `s` to the last address of the network it returns
exactly these addresses in order and no error, unless the network ends at
255.255.255.255, where the process ends in `getNetwork`. -/
theorem GetNetworkAddresses_v4 (s p fuel : Nat) (hs : s < 4294967296) (hp : p ≤ 32) :
    GetNetworkAddresses fuel (cidrText s p) =
      if fuel ≤ lastOf s p - s then Run.outOfFuel
      else if lastOf s p + 1 < 4294967296 then
        Run.done ({ Ipv4s := (List.range (lastOf s p - s + 1)).map (fun i => ip16 (s + i)),
                    NetworkAddr := ⟨4, networkOf s p⟩, Current := ⟨4, networkOf s p⟩,
                    Mask := (p : Int) }, none)
      else Run.fatal "getNetwork" := by
  obtain ⟨-, hA, hsl⟩ := prefix_text p hp
  obtain ⟨hd, hle⟩ := lastOf_sub s p
  have hdata : (cidrText s p).data = string4 s ++ '/' :: (Itoa (p : Int)).data := by
    simp [cidrText, String.data_append]
  have hsplit : (splitByte '/' (cidrText s p).data).get? 1 = some (Itoa (p : Int)).data := by
    rw [hdata, splitByte_append _ _ _ (slash_not_mem_string4 s), splitByte_none _ _ hsl]
    rfl
  have hparse := ParseCIDR_v4 s p hs hp
  have hrec := addressRecurse_v4 p hp (networkOf s p) ⟨4, networkOf s p⟩ (lastOf s p - s) s []
    fuel (by have := lastOf_lt s p hs hp; omega) rfl hd
  have hsum : s + (lastOf s p - s) + 1 = lastOf s p + 1 := by omega
  rw [hsum] at hrec
  simp only [List.nil_append] at hrec
  unfold GetNetworkAddresses
  rw [hsplit]
  simp only [cidrText, hparse, hA, ipMask_16_cidr s p hs hp]
  have hnet : s / 2 ^ (32 - p) * 2 ^ (32 - p) = networkOf s p := rfl
  rw [hnet]
  have hip : (⟨16, 281470681743360 + s⟩ : Bytes) = ip16 s := rfl
  rw [hip, hrec]
  by_cases hf : fuel ≤ lastOf s p - s
  · simp [hf]
  · by_cases hm : lastOf s p + 1 < 4294967296
    · simp [hf, hm]
    · simp [hf, hm]

/-- Membership in the network of `s`: the addresses from its network address to its
last address are exactly those with the same masked value. -/
theorem networkOf_eq_iff (a s p : Nat) :
    networkOf a p = networkOf s p ↔ networkOf s p ≤ a ∧ a ≤ lastOf s p := by
  have hK : 0 < 2 ^ (32 - p) := Nat.two_pow_pos _
  have ha := Nat.div_add_mod a (2 ^ (32 - p))
  have ha2 := Nat.mod_lt a hK
  unfold lastOf networkOf
  constructor
  · intro h
    rw [Nat.mul_comm] at ha
    omega
  · rintro ⟨h1, h2⟩
    have hq : a / 2 ^ (32 - p) = s / 2 ^ (32 - p) := by
      apply Nat.div_eq_of_lt_le
      · exact h1
      · rw [Nat.add_mul, Nat.one_mul]; omega
    rw [hq]

theorem ipMask_ip16 (n p : Nat) (h : n < 4294967296) (hp : p ≤ 32) :
    ipMask (ip16 n) (CIDRMask p 32) = ⟨4, networkOf n p⟩ :=
  ipMask_16_cidr n p h hp

theorem cidrText_top : cidrText 4294967295 32 = "255.255.255.255/32" := by decide

theorem cidrText_top31 : cidrText 4294967294 31 = "255.255.255.254/31" := by decide

theorem cidrText_small : cidrText 3232235777 30 = "192.168.1.1/30" := by decide

theorem cidrText_local : cidrText 3232248370 24 = "192.168.50.50/24" := by decide

/-- What a successful run on IPv4 text returned. -/
theorem GetNetworkAddresses_v4_done (s p fuel : Nat) (hs : s < 4294967296) (hp : p ≤ 32)
    (r : IpSubnetMapper) (e : Option Err)
    (h : GetNetworkAddresses fuel (cidrText s p) = Run.done (r, e)) :
    r = { Ipv4s := (List.range (lastOf s p - s + 1)).map (fun i => ip16 (s + i)),
          NetworkAddr := ⟨4, networkOf s p⟩, Current := ⟨4, networkOf s p⟩,
          Mask := (p : Int) } ∧ e = none ∧ lastOf s p + 1 < 4294967296 := by
  rw [GetNetworkAddresses_v4 s p fuel hs hp] at h
  split at h
  · exact absurd h (by simp)
  · split at h
    · rename_i hm
      simp only [Run.done.injEq, Prod.mk.injEq] at h
      exact ⟨h.1.symm, h.2.symm, hm⟩
    · exact absurd h (by simp)
/-! ## Claims about `GetNetworkAddresses` -/

/-- C1 (defect in the code). On the input `255.255.255.255/32`, a valid IPv4 seed with
a prefix length in 0..32, `GetNetworkAddresses` does not return the one-address list
the claim describes: the successor of the seed is the text `invalid IP`, `getNetwork`
fails to parse it and ends the process, however deep the recursion may go. -/
theorem C1_top_address_ends_process (fuel : Nat) :
    GetNetworkAddresses (fuel + 1) "255.255.255.255/32" = Run.fatal "getNetwork" := by
  have hl : lastOf 4294967295 32 = 4294967295 := by decide
  rw [← cidrText_top, GetNetworkAddresses_v4 _ _ _ (by norm_num) (by norm_num), hl]
  simp

/-- C2. Whenever `GetNetworkAddresses` returns a result for the text of a valid seed
and a prefix length up to 32, every returned address masked by the prefix length is
the result's `NetworkAddr`, which is the seed masked by the prefix length. -/
theorem C2_every_address_in_seed_network (s p fuel : Nat) (r : IpSubnetMapper)
    (e : Option Err) (hs : s < 4294967296) (hp : p ≤ 32)
    (h : GetNetworkAddresses fuel (cidrText s p) = Run.done (r, e)) :
    (∀ ip ∈ r.Ipv4s, ipMask ip (CIDRMask p 32) = r.NetworkAddr) ∧
      r.NetworkAddr = ipMask (ip16 s) (CIDRMask p 32) := by
  obtain ⟨hr, -, hm⟩ := GetNetworkAddresses_v4_done s p fuel hs hp r e h
  obtain ⟨hd, hle⟩ := lastOf_sub s p
  subst hr
  refine ⟨?_, (ipMask_ip16 s p hs hp).symm⟩
  intro ip hip
  simp only [List.mem_map, List.mem_range] at hip
  obtain ⟨i, hi, rfl⟩ := hip
  rw [ipMask_ip16 (s + i) p (by omega) hp]
  have hn : networkOf (s + i) p = networkOf s p :=
    (networkOf_eq_iff (s + i) s p).mpr ⟨le_trans (networkOf_le s p) (Nat.le_add_right _ _), by omega⟩
  rw [hn]

/-- C2 at `192.168.1.1/30`: the three returned addresses all mask to `192.168.1.0`. -/
theorem C2_every_address_in_seed_network_witness :
    (∀ ip ∈ [ip16 3232235777, ip16 3232235778, ip16 3232235779],
        ipMask ip (CIDRMask 30 32) = ⟨4, 3232235776⟩) ∧
      (⟨4, 3232235776⟩ : Bytes) = ipMask (ip16 3232235777) (CIDRMask 30 32) :=
  C2_every_address_in_seed_network 3232235777 30 5
    { Ipv4s := [ip16 3232235777, ip16 3232235778, ip16 3232235779],
      NetworkAddr := ⟨4, 3232235776⟩, Current := ⟨4, 3232235776⟩, Mask := 30 }
    none (by decide) (by decide) (by decide)

/-- C3. Whenever `GetNetworkAddresses` returns a result for the text of a valid seed
and a prefix length up to 32, the first returned address is the seed, the returned
addresses are strictly increasing as numbers, and none is below the seed. -/
theorem C3_starts_at_seed_and_increases (s p fuel : Nat) (r : IpSubnetMapper)
    (e : Option Err) (hs : s < 4294967296) (hp : p ≤ 32)
    (h : GetNetworkAddresses fuel (cidrText s p) = Run.done (r, e)) :
    r.Ipv4s.head? = some (ip16 s) ∧
      List.Pairwise (fun a b : Bytes => a.len = b.len ∧ a.val < b.val) r.Ipv4s ∧
      ∀ ip ∈ r.Ipv4s, ip.len = 16 ∧ (ip16 s).val ≤ ip.val := by
  obtain ⟨hr, -, -⟩ := GetNetworkAddresses_v4_done s p fuel hs hp r e h
  subst hr
  refine ⟨?_, ?_, ?_⟩
  · simp [List.range_succ_eq_map]
  · rw [List.pairwise_map]
    refine List.Pairwise.imp ?_ (List.pairwise_lt_range _)
    intro a b hab
    simp only [ip16, true_and]
    omega
  · intro ip hip
    simp only [List.mem_map, List.mem_range] at hip
    obtain ⟨i, -, rfl⟩ := hip
    simp only [ip16, true_and]
    omega

/-- C3 at `10.0.0.250/24`: the result starts at `10.0.0.250`, not at `10.0.0.0`. -/
theorem C3_starts_at_seed_and_increases_witness :
    [ip16 167772410, ip16 167772411, ip16 167772412, ip16 167772413, ip16 167772414,
        ip16 167772415].head? = some (ip16 167772410) ∧
      List.Pairwise (fun a b : Bytes => a.len = b.len ∧ a.val < b.val)
        [ip16 167772410, ip16 167772411, ip16 167772412, ip16 167772413, ip16 167772414,
          ip16 167772415] ∧
      ∀ ip ∈ [ip16 167772410, ip16 167772411, ip16 167772412, ip16 167772413,
          ip16 167772414, ip16 167772415], ip.len = 16 ∧ (ip16 167772410).val ≤ ip.val :=
  C3_starts_at_seed_and_increases 167772410 24 6
    { Ipv4s := [ip16 167772410, ip16 167772411, ip16 167772412, ip16 167772413,
        ip16 167772414, ip16 167772415],
      NetworkAddr := ⟨4, 167772160⟩, Current := ⟨4, 167772160⟩, Mask := 24 }
    none (by decide) (by decide) (by decide)

/-- C4 (defect in the code). On `192.168.50.50/24` the run returns the 206 addresses
from `192.168.50.50` to `192.168.50.255`; `192.168.50.0` masks to the same network as
the seed and is not among them, so not all addresses of the network are returned. -/
theorem C4_addresses_below_seed_missing :
    GetNetworkAddresses 206 "192.168.50.50/24" =
        Run.done ({ Ipv4s := (List.range 206).map (fun i => ip16 (3232248370 + i)),
                    NetworkAddr := ⟨4, 3232248320⟩, Current := ⟨4, 3232248320⟩,
                    Mask := 24 }, none) ∧
      ipMask (ip16 3232248320) (CIDRMask 24 32) = ipMask (ip16 3232248370) (CIDRMask 24 32) ∧
      ip16 3232248320 ∉ (List.range 206).map (fun i => ip16 (3232248370 + i)) := by
  have hl : lastOf 3232248370 24 = 3232248575 := by decide
  have hn : networkOf 3232248370 24 = 3232248320 := by decide
  refine ⟨?_, ?_, ?_⟩
  · rw [← cidrText_local, GetNetworkAddresses_v4 _ _ _ (by norm_num) (by norm_num), hl, hn]
    simp
  · rw [ipMask_ip16 _ _ (by norm_num) (by norm_num),
      ipMask_ip16 _ _ (by norm_num) (by norm_num)]
    decide
  · simp only [List.mem_map, List.mem_range, ip16, Bytes.mk.injEq, true_and, not_exists,
      not_and]
    intro i _
    omega

/-- C6 (defect in the code). On `255.255.255.254/31`, whose network contains
255.255.255.255, the enumeration does not stop through the network-membership
check: after appending 255.255.255.255 it asks for the network of the text
`invalid IP` and reaches the fatal parse-failure branch of `getNetwork`. -/
theorem C6_overflow_reaches_fatal_branch (fuel : Nat) :
    GetNetworkAddresses (fuel + 2) "255.255.255.254/31" = Run.fatal "getNetwork" ∧
      getNextAddr "255.255.255.255" = Run.done "invalid IP" ∧
      getNetwork "invalid IP" 31 = Run.fatal "getNetwork" := by
  have hl : lastOf 4294967294 31 = 4294967295 := by decide
  refine ⟨?_, by decide, getNetwork_invalid 31⟩
  rw [← cidrText_top31, GetNetworkAddresses_v4 _ _ _ (by norm_num) (by norm_num), hl]
  simp

/-! ## Rejected input -/

theorem dtoiLoop_nondigit (pre : List Char) (h : ∃ c ∈ pre, isDigit c = false) :
    ∀ n i, (dtoiLoop pre n i).2.2 = false ∨ (dtoiLoop pre n i).2.1 < i + pre.length := by
  induction pre with
  | nil => simp at h
  | cons c cs ih =>
    intro n i
    rw [dtoiLoop]
    by_cases hc : isDigit c = true
    · simp only [hc, if_true]
      split
      · exact Or.inl rfl
      · have hcs : ∃ c ∈ cs, isDigit c = false := by
          obtain ⟨x, hx, hxd⟩ := h
          rcases List.mem_cons.mp hx with rfl | hx
          · rw [hc] at hxd; exact absurd hxd (by simp)
          · exact ⟨x, hx, hxd⟩
        rcases ih hcs (n * 10 + digitVal c) (i + 1) with h1 | h1
        · exact Or.inl h1
        · right
          simp only [List.length_cons]
          omega
    · simp only [hc, Bool.false_eq_true, if_false]
      right
      simp

theorem dtoiLoop_digits (pre : List Char) (h : ∀ c ∈ pre, isDigit c = true) :
    ∀ n i, (dtoiLoop pre n i).2.2 = false ∨
      dtoiLoop pre n i = (pre.foldl (fun a c => a * 10 + digitVal c) n, i + pre.length, true) := by
  induction pre with
  | nil => intro n i; right; simp [dtoiLoop]
  | cons c cs ih =>
    intro n i
    rw [dtoiLoop]
    simp only [h c (List.mem_cons_self _ _), if_true]
    split
    · exact Or.inl rfl
    · rcases ih (fun x hx => h x (List.mem_cons_of_mem _ hx)) (n * 10 + digitVal c) (i + 1)
        with h1 | h1
      · exact Or.inl h1
      · right
        rw [h1]
        simp only [List.foldl_cons, List.length_cons, Prod.mk.injEq, and_true, true_and]
        omega

/-- `net.ParseCIDR` rejects every malformed text. -/
theorem ParseCIDR_malformed (addr : String) (h : malformedCIDR addr) : ParseCIDR addr = none := by
  unfold ParseCIDR
  rcases h with h | ⟨seed, pre, hdata, hseed, h⟩
  · rw [indexByte_none _ _ h]
  · rw [hdata, indexByte_append _ _ _ hseed]
    simp only [take_length_append, drop_length_append]
    rcases h with h | ⟨a, ha, h⟩
    · rw [h]
    · rw [ha]
      simp only
      by_cases hz : a.Zone ≠ ""
      · rw [if_pos hz]
      · rw [if_neg hz]
        have key : (dtoi pre).2.2 = false ∨ (dtoi pre).2.1 ≠ pre.length ∨
            (dtoi pre).1 > a.BitLen := by
          rcases h with h | h | h | h
          · exact absurd h hz
          · subst h; left; rfl
          · have := dtoiLoop_nondigit pre h 0 0
            unfold dtoi
            split
            rename_i n j ok heq
            rw [heq] at this
            simp only [Nat.zero_add] at this
            split
            · left; rfl
            · rcases this with h1 | h1
              · left; exact h1
              · right; left; exact Nat.ne_of_lt h1
          · by_cases hd : ∀ c ∈ pre, isDigit c = true
            · have := dtoiLoop_digits pre hd 0 0
              unfold dtoi
              split
              rename_i n j ok heq
              rw [heq] at this
              split
              · left; rfl
              · rcases this with h1 | h1
                · left; exact h1
                · right; right
                  simp only [Prod.mk.injEq] at h1
                  simp only [h1.1]
                  exact h
            · have hnd : ∃ c ∈ pre, isDigit c = false := by
                push_neg at hd
                obtain ⟨c, hc, hcd⟩ := hd
                exact ⟨c, hc, by simpa using hcd⟩
              have := dtoiLoop_nondigit pre hnd 0 0
              unfold dtoi
              split
              rename_i n j ok heq
              rw [heq] at this
              simp only [Nat.zero_add] at this
              split
              · left; rfl
              · rcases this with h1 | h1
                · left; exact h1
                · right; left; exact Nat.ne_of_lt h1
        rcases hdt : dtoi pre with ⟨n, j, ok⟩
        rw [hdt] at key
        simp only at key ⊢
        rw [if_pos key]

/-- C5 (as amended). For every malformed text (no `/`; a seed that is neither an IPv4
nor an IPv6 literal or that carries a zone; an empty prefix part, one with a character
other than a decimal digit, or one above the bit length of the seed, 32 for IPv4 and
128 for IPv6) `GetNetworkAddresses` returns a non-nil error and the empty
`IpSubnetMapper`, which holds zero addresses. -/
theorem C5_malformed_text_is_rejected (fuel : Nat) (addr : String) (h : malformedCIDR addr) :
    GetNetworkAddresses fuel addr = Run.done (IpSubnetMapper.empty, some (Err.parseError addr)) ∧
      IpSubnetMapper.empty.Ipv4s = [] := by
  unfold GetNetworkAddresses
  rw [ParseCIDR_malformed addr h]
  exact ⟨rfl, rfl⟩

/-- C5 at `192.168.50.1/deez`, whose prefix part has a character that is no digit. -/
theorem C5_malformed_text_is_rejected_witness :
    GetNetworkAddresses 5 "192.168.50.1/deez" =
        Run.done (IpSubnetMapper.empty, some (Err.parseError "192.168.50.1/deez")) ∧
      IpSubnetMapper.empty.Ipv4s = [] :=
  C5_malformed_text_is_rejected 5 "192.168.50.1/deez"
    (Or.inr ⟨"192.168.50.1".data, "deez".data, by decide, by decide,
      Or.inr ⟨Addr.v4 3232248321, by decide, Or.inr (Or.inr (Or.inl ⟨'d', by decide, by decide⟩))⟩⟩)

/-- C5 (counterexample to the claim as written). The seed `::1` is no IPv4 literal and
the prefix length 128 is outside 0..32, yet `GetNetworkAddresses` returns no error and
a mapper with one address. -/
theorem C5_ipv6_text_is_accepted :
    parseIPv4Fields "::1".data = none ∧
      GetNetworkAddresses 1 "::1/128" =
        Run.done ({ Ipv4s := [⟨16, 1⟩], NetworkAddr := ⟨16, 1⟩, Current := ⟨16, 1⟩,
                    Mask := 128 }, none) := by
  decide

/-! ## `PortWalk` -/

theorem singlePortScan_ne_zero (connected : Bool) (port : Int) :
    singlePortScan connected port ≠ 0 ↔ (connected = true ∧ port ≠ 0) := by
  cases connected <;> simp [singlePortScan]

theorem portWalkLoop_eq (dial : Dialer) (addr : String) (ports : List Int) :
    ∀ (i : Nat) (out : List Int),
      portWalkLoop dial addr ports i out =
        out ++ ((ports.enumFrom i).filter
          (fun ip => dial ip.1 addr ip.2 && decide (ip.2 ≠ 0))).map Prod.snd := by
  induction ports with
  | nil => intro i out; simp [portWalkLoop]
  | cons port rest ih =>
    intro i out
    rw [portWalkLoop]
    by_cases h : singlePortScan (dial i addr port) port ≠ 0
    · obtain ⟨hc, hp⟩ := (singlePortScan_ne_zero _ _).mp h
      rw [if_pos h, ih, List.enumFrom_cons, List.filter_cons_of_pos (by simp [hc, hp])]
      simp [singlePortScan, hc]
    · have hn : ¬ (dial i addr port = true ∧ port ≠ 0) :=
        fun e => h ((singlePortScan_ne_zero _ _).mpr e)
      rw [if_neg h, ih]
      have hf : (dial i addr port && decide (port ≠ 0)) = false := by
        cases hd : dial i addr port
        · rfl
        · have : port = 0 := by
            by_contra hp
            exact hn ⟨hd, hp⟩
          simp [this]
      rw [List.enumFrom_cons, List.filter_cons_of_neg (by rw [hf]; simp)]

theorem PortWalk_eq (dial : Dialer) (addr : String) (ports : List Int) :
    PortWalk dial addr ports =
      ((ports.enum).filter (fun ip => dial ip.1 addr ip.2 && decide (ip.2 ≠ 0))).map
        Prod.snd := by
  simp [PortWalk, portWalkLoop_eq, List.enum]

/-- For a port list without port 0, `PortWalk` returns exactly the connected ports. -/
theorem PortWalk_eq_connectedPorts (dial : Dialer) (addr : String) (ports : List Int)
    (h0 : (0 : Int) ∉ ports) : PortWalk dial addr ports = connectedPorts dial addr ports := by
  rw [PortWalk_eq, connectedPorts]
  congr 1
  apply List.filter_congr
  intro ip hip
  have hne : ip.2 ≠ 0 := by
    intro e
    apply h0
    have := List.mem_map_of_mem Prod.snd hip
    rw [List.enum_map_snd] at this
    rwa [e] at this
  simp [hne]

/-- C7 (as amended). For every address, port list and outcome of the connect attempts,
`PortWalk` returns exactly the ports whose connect succeeded and whose number is not
0, in the order of the list (neither sorted nor reordered); a failed connect only
leaves that port out.  With ports 22, 80, 443, 8080 and only 80 and 8080 open the
result is 80, 8080. -/
theorem C7_portWalk_keeps_connected_nonzero_ports :
    (∀ (dial : Dialer) (addr : String) (ports : List Int),
        PortWalk dial addr ports =
          ((ports.enum).filter (fun ip => dial ip.1 addr ip.2 && decide (ip.2 ≠ 0))).map
            Prod.snd) ∧
      PortWalk (fun _ _ p => decide (p = 80) || decide (p = 8080)) "10.0.0.7"
        [22, 80, 443, 8080] = [80, 8080] :=
  ⟨PortWalk_eq, by decide⟩

/-- C7 (counterexample to the claim as written). With the port list `[0]` and a connect
that succeeds, the connected ports are `[0]` but `PortWalk` returns the empty list:
`singlePortScan` returns the port, 0, which `PortWalk` reads as a failed connect. -/
theorem C7_port_zero_is_dropped :
    connectedPorts (fun _ _ _ => true) "10.0.0.7" [0] = [0] ∧
      PortWalk (fun _ _ _ => true) "10.0.0.7" [0] = [] := by
  decide
/-! ## `Itoa` writes the decimal numeral -/

theorem decimalValue_append (l : List Char) (c : Char) :
    decimalValue (l ++ [c]) = decimalValue l * 10 + digitVal c := by
  simp [decimalValue, List.foldl_append]

theorem decimalValue_decimalDigits (fuel : Nat) : ∀ n : Nat, n < 10 ^ fuel →
    decimalValue (decimalDigits fuel n) = n := by
  induction fuel with
  | zero => intro n h; simp at h; subst h; rfl
  | succ f ih =>
    intro n h
    rw [decimalDigits]
    by_cases hn : n < 10
    · rw [if_pos hn]
      simp [decimalValue, digitVal_digitChar n hn]
    · rw [if_neg hn, decimalValue_append, digitVal_digitChar _ (Nat.mod_lt _ (by norm_num)),
        ih (n / 10) (by rw [Nat.div_lt_iff_lt_mul (by norm_num)]; rw [Nat.pow_succ] at h; exact h)]
      omega

/-- The text `Itoa` writes for a natural number spells that number in decimal. -/
theorem decimalValue_Itoa (n : Nat) : decimalValue (Itoa (n : Int)).data = n :=
  decimalValue_decimalDigits (n + 1) n (Nat.lt_pow_succ_log_self (by norm_num) n |>.trans_le
    (Nat.pow_le_pow_right (by norm_num) (Nat.succ_le_succ (Nat.log_le_self 10 n))))

/-! ## The port string of `NetSweep` -/

theorem plainChar_not_space (c : Char) (h : plainChar c) : isSpace c = false := by
  rcases h with rfl | ⟨d, hd, rfl⟩
  · decide
  · interval_cases d <;> decide

theorem plainChar_not_bracket (c : Char) (h : plainChar c) : c ∉ ['[', ']'] := by
  rcases h with rfl | ⟨d, hd, rfl⟩
  · decide
  · interval_cases d <;> decide

theorem decimalDigits_plain (fuel n : Nat) : ∀ c ∈ decimalDigits fuel n, plainChar c := by
  induction fuel generalizing n with
  | zero => intro c hc; simp [decimalDigits] at hc
  | succ f ih =>
    intro c hc
    rw [decimalDigits] at hc
    split at hc
    · rename_i hn
      simp only [List.mem_singleton] at hc
      exact Or.inr ⟨n, hn, hc⟩
    · simp only [List.mem_append, List.mem_singleton] at hc
      rcases hc with hc | hc
      · exact ih _ c hc
      · exact Or.inr ⟨n % 10, Nat.mod_lt _ (by norm_num), hc⟩

theorem decimalDigits_ne_nil (fuel n : Nat) : decimalDigits (fuel + 1) n ≠ [] := by
  rw [decimalDigits]
  split <;> simp

theorem Itoa_plain (i : Int) : ∀ c ∈ (Itoa i).data, plainChar c := by
  intro c hc
  cases i with
  | ofNat n => exact decimalDigits_plain _ _ c hc
  | negSucc n =>
    simp only [Itoa, List.mem_cons] at hc
    rcases hc with hc | hc
    · exact Or.inl hc
    · exact decimalDigits_plain _ _ c hc

theorem Itoa_ne_nil (i : Int) : (Itoa i).data ≠ [] := by
  cases i with
  | ofNat n => exact decimalDigits_ne_nil _ _
  | negSucc n => simp [Itoa]

/-- `fieldsLoop` reads a run of characters that are not white space into the field. -/
theorem fieldsLoop_word (w : List Char) (hw : ∀ c ∈ w, isSpace c = false) :
    ∀ (rest cur : List Char), fieldsLoop (w ++ rest) cur = fieldsLoop rest (cur ++ w) := by
  induction w with
  | nil => intro rest cur; simp
  | cons c cs ih =>
    intro rest cur
    rw [List.cons_append, fieldsLoop, hw c (List.mem_cons_self _ _)]
    simp only [Bool.false_eq_true, if_false]
    rw [ih (fun x hx => hw x (List.mem_cons_of_mem _ hx))]
    simp

theorem fieldsLoop_words (ts : List (List Char)) :
    ∀ (t cur : List Char), (∀ c ∈ t, isSpace c = false) → t ≠ [] →
      (∀ u ∈ ts, (∀ c ∈ u, isSpace c = false) ∧ u ≠ []) →
      fieldsLoop (t ++ ((ts.map (fun e => [' '] ++ e)).flatten ++ [']'])) cur =
        fieldsOut (cur ++ t) ts := by
  induction ts with
  | nil =>
    intro t cur ht hne _
    have hb : ∀ c ∈ t ++ [']'], isSpace c = false := by
      intro c hc
      rcases List.mem_append.mp hc with h | h
      · exact ht c h
      · simp only [List.mem_singleton] at h; subst h; decide
    have := fieldsLoop_word (t ++ [']']) hb [] cur
    simp only [List.append_nil] at this
    simp only [List.map_nil, List.flatten_nil, List.nil_append, fieldsOut]
    rw [this, fieldsLoop]
    simp [hne]
  | cons u us ih =>
    intro t cur ht hne hts
    obtain ⟨hu, hune⟩ := hts u (List.mem_cons_self _ _)
    have hl : ((u :: us).map (fun e => [' '] ++ e)).flatten ++ [']'] =
        ' ' :: (u ++ ((us.map (fun e => [' '] ++ e)).flatten ++ [']'])) := by
      simp
    have hsp : isSpace ' ' = true := by decide
    have hcur : cur ++ t ≠ [] := by simp [hne]
    rw [fieldsLoop_word t ht, hl, fieldsLoop, hsp]
    simp only [if_true, if_neg hcur, fieldsOut]
    rw [ih u [] hu hune (fun x hx => hts x (List.mem_cons_of_mem _ hx)), List.nil_append]

theorem fieldsOut_ne_nil (c : List Char) (ts : List (List Char)) : fieldsOut c ts ≠ [] := by
  cases ts <;> simp [fieldsOut]
theorem Join_cons_data (a : String) (l : List String) (sep : String) :
    (Join (a :: l) sep).data = a.data ++ (l.map (fun e => sep.data ++ e.data)).flatten := rfl

theorem Join_fieldsOut (ts : List (List Char)) : ∀ c : List Char,
    (Join ((fieldsOut c ts).map String.mk) ",").data =
      c ++ ((ts.map (fun e => [','] ++ e)).flatten ++ [']']) := by
  induction ts with
  | nil => intro c; simp [fieldsOut, Join]
  | cons u us ih =>
    intro c
    have hne := fieldsOut_ne_nil u us
    rcases hfo : fieldsOut u us with _ | ⟨h, tl⟩
    · exact absurd hfo hne
    · have h2 := ih u
      rw [hfo, List.map_cons, Join_cons_data] at h2
      simp only [fieldsOut, hfo, List.map_cons, Join_cons_data, List.flatten_cons,
        List.append_assoc]
      rw [h2]

theorem trimLeft_all (cs l : List Char) (h : ∀ c ∈ l, c ∉ cs) : trimLeft cs l = l := by
  cases l with
  | nil => rfl
  | cons c l => rw [trimLeft, if_neg (h c (List.mem_cons_self _ _))]

theorem trimLeft_append (cs l r : List Char) (h : ∀ c ∈ l, c ∉ cs) (hne : l ≠ []) :
    trimLeft cs (l ++ r) = l ++ r := by
  cases l with
  | nil => exact absurd rfl hne
  | cons c l => rw [List.cons_append, trimLeft, if_neg (h c (List.mem_cons_self _ _))]

/-- Trimming the brackets off a bracketed text without brackets inside. -/
theorem Trim_brackets (body : List Char) (h : ∀ c ∈ body, c ∉ ['[', ']']) (hne : body ≠ []) :
    Trim ⟨'[' :: (body ++ [']'])⟩ "[]" = ⟨body⟩ := by
  have hcs : ("[]" : String).data = ['[', ']'] := rfl
  unfold Trim
  rw [hcs]
  simp only
  rw [trimLeft, if_pos (by simp), trimLeft_append _ _ _ h hne, List.reverse_append,
    List.reverse_singleton, List.singleton_append, trimLeft, if_pos (by simp),
    trimLeft_all _ _ (fun c hc => h c (List.mem_reverse.mp hc)), List.reverse_reverse]

/-- The port string of a non-empty port list. -/
theorem PortString_cons (p : Int) (ps : List Int) :
    PortString (p :: ps) = Join ((p :: ps).map Itoa) "," := by
  have hword : ∀ x : Int, (∀ c ∈ (Itoa x).data, isSpace c = false) ∧ (Itoa x).data ≠ [] :=
    fun x => ⟨fun c hc => plainChar_not_space c (Itoa_plain x c hc), Itoa_ne_nil x⟩
  have hsprint : (Sprint (p :: ps)).data =
      '[' :: ((Itoa p).data ++
        (((ps.map (fun x => (Itoa x).data)).map (fun e => [' '] ++ e)).flatten ++ [']'])) := by
    simp only [Sprint, List.map_cons, String.data_append, Join_cons_data, List.map_map]
    rw [List.append_assoc, List.append_assoc, List.singleton_append]
    rfl
  have hfields : Fields (Sprint (p :: ps)) =
      (fieldsOut ('[' :: (Itoa p).data) (ps.map (fun x => (Itoa x).data))).map String.mk := by
    unfold Fields
    rw [hsprint, fieldsLoop]
    have hb : isSpace '[' = false := by decide
    rw [hb]
    simp only [Bool.false_eq_true, if_false, List.nil_append]
    rw [fieldsLoop_words _ _ _ (hword p).1 (hword p).2]
    · rfl
    · intro u hu
      obtain ⟨x, -, rfl⟩ := List.mem_map.mp hu
      exact hword x
  have hjoin : Join (Fields (Sprint (p :: ps))) "," =
      ⟨'[' :: (((Itoa p).data ++
        ((ps.map (fun x => (Itoa x).data)).map (fun e => [','] ++ e)).flatten) ++ [']'])⟩ := by
    apply String.ext
    rw [hfields, Join_fieldsOut]
    simp
  have hbody : ∀ c ∈ (Itoa p).data ++
      ((ps.map (fun x => (Itoa x).data)).map (fun e => [','] ++ e)).flatten,
      c ∉ ['[', ']'] := by
    intro c hc
    rcases List.mem_append.mp hc with h | h
    · exact plainChar_not_bracket c (Itoa_plain p c h)
    · obtain ⟨l, hl, hcl⟩ := List.mem_flatten.mp h
      obtain ⟨u, hu, rfl⟩ := List.mem_map.mp hl
      obtain ⟨x, -, rfl⟩ := List.mem_map.mp hu
      rcases List.mem_append.mp hcl with h1 | h1
      · simp only [List.mem_singleton] at h1; subst h1; decide
      · exact plainChar_not_bracket c (Itoa_plain x c h1)
  unfold PortString
  rw [hjoin, Trim_brackets _ hbody (by simp [Itoa_ne_nil])]
  apply String.ext
  simp only [List.map_cons, Join_cons_data, List.map_map]
  rfl

/-- C9. The port string that `NetSweep` stores is the decimal port numbers joined by
single commas in the order of the list, without brackets and spaces: `[80, 8080]`
gives `80,8080` and the empty list gives the empty string. -/
theorem C9_port_string_is_comma_joined :
    (∀ ports : List Int, PortString ports = Join (ports.map Itoa) ",") ∧
      PortString [80, 8080] = "80,8080" ∧ PortString [] = "" := by
  refine ⟨?_, by decide, by decide⟩
  intro ports
  cases ports with
  | nil => decide
  | cons p ps => exact PortString_cons p ps

/-! ## Reconciliation -/

/-- The calls a round of the reconciliation loop lists are the calls it makes: on the
store with a log, started with the empty log, the round leaves the state it leaves
on the store itself, and the log holds exactly the listed calls. -/
theorem reconcileStep_recording {σ : Type} (db : TopologyDatabaseIO σ) (x : Host) (s : σ) :
    (reconcileStep (recording db) x (s, [])).store =
        ((reconcileStep db x s).store, (reconcileStep db x s).calls) ∧
      (reconcileStep (recording db) x (s, [])).fatal = (reconcileStep db x s).fatal := by
  by_cases hlen : x.ListeningPorts.length > 0
  · simp only [reconcileStep, hlen, if_true, recording]
    rcases hget : db.GetByIP x.IpAddress s with ⟨err | host, s1⟩
    · simp only
      by_cases hne : err ≠ DbErr.ErrNotExists
      · simp only [if_pos hne, List.nil_append, and_self]
      · simp only [if_neg hne]
        rcases hcreate : db.Create x s1 with ⟨e2 | h2, s2⟩ <;>
          simp only [List.nil_append, List.singleton_append, and_self]
    · simp only
      rcases hupdate : db.Update host.Id x s1 with ⟨e2 | h2, s2⟩ <;>
        simp only [List.nil_append, List.singleton_append, and_self]
  · simp only [reconcileStep, hlen, if_false, and_self]

/-- C10. For a scan result `x` with at least one open port, one round of the
reconciliation loop calls `GetByIP x.IpAddress` on the store and then: if the lookup
reports `ErrNotExists` it calls `Create x` once, on the state the lookup left, and
never `Update`; if the lookup returns a record `h` it calls `Update h.Id x` once, on
the state the lookup left, and never `Create`, so the update goes to the existing id;
if the lookup fails with any other error it ends the process without a further call.
In each case the round leaves the store in the state this last call left, and ends the
process exactly when that call returned an error.  The calls listed are the calls
made: the store with a log records exactly them. -/
theorem C10_reconcile_create_or_update {σ : Type} (db : TopologyDatabaseIO σ) (x : Host)
    (s : σ) (hx : x.ListeningPorts ≠ []) :
    (∀ s1, db.GetByIP x.IpAddress s = (Except.error DbErr.ErrNotExists, s1) →
        reconcileStep db x s =
          ⟨[DbCall.GetByIP x.IpAddress, DbCall.Create x], (db.Create x s1).2,
            fatalIfError (db.Create x s1).1 " Fatal error trying to read the database.\n"⟩) ∧
      (∀ h s1, db.GetByIP x.IpAddress s = (Except.ok h, s1) →
        reconcileStep db x s =
          ⟨[DbCall.GetByIP x.IpAddress, DbCall.Update h.Id x], (db.Update h.Id x s1).2,
            fatalIfError (db.Update h.Id x s1).1 " fatal error when updating a record.\n"⟩) ∧
      (∀ err s1, db.GetByIP x.IpAddress s = (Except.error err, s1) → err ≠ DbErr.ErrNotExists →
        reconcileStep db x s =
          ⟨[DbCall.GetByIP x.IpAddress], s1,
            some " Couldnt access the database. Fatal error.\n"⟩) ∧
      (reconcileStep (recording db) x (s, [])).store =
        ((reconcileStep db x s).store, (reconcileStep db x s).calls) := by
  have hlen : x.ListeningPorts.length > 0 := List.length_pos.mpr hx
  refine ⟨?_, ?_, ?_, (reconcileStep_recording db x s).1⟩
  · intro s1 hget
    simp only [reconcileStep, hlen, if_true, hget]
    rcases db.Create x s1 with ⟨_ | _, s2⟩ <;> simp [fatalIfError]
  · intro h s1 hget
    simp only [reconcileStep, hlen, if_true, hget]
    rcases db.Update h.Id x s1 with ⟨_ | _, s2⟩ <;> simp [fatalIfError]
  · intro err s1 hget hne
    simp [reconcileStep, hlen, hget, hne]

/-- C10 on the SQLite store: a first sighting of 10.0.0.7 is created under id 1; a
second sighting with other ports updates that record, under id 1, to the new port
string; a store whose lookup is broken ends the process after the lookup; and the log
of the store holds the two calls of the second sighting. -/
theorem C10_reconcile_create_or_update_witness :
    (gatewayHostLater.ListeningPorts ≠ [] ∧
      reconcileStep SQLiteRepo gatewayHost ⟨[], 0⟩ =
        ⟨[DbCall.GetByIP "10.0.0.7", DbCall.Create gatewayHost], gatewayTable, none⟩ ∧
      reconcileStep SQLiteRepo gatewayHostLater gatewayTable =
        ⟨[DbCall.GetByIP "10.0.0.7", DbCall.Update 1 gatewayHostLater], gatewayTableLater,
          none⟩ ∧
      reconcileStep brokenRepo gatewayHostLater gatewayTable =
        ⟨[DbCall.GetByIP "10.0.0.7"], gatewayTable,
          some " Couldnt access the database. Fatal error.\n"⟩ ∧
      (reconcileStep (recording SQLiteRepo) gatewayHostLater (gatewayTable, [])).store =
        (gatewayTableLater, [DbCall.GetByIP "10.0.0.7", DbCall.Update 1 gatewayHostLater])) ∧
    ((∀ s1, SQLiteRepo.GetByIP gatewayHostLater.IpAddress gatewayTable =
          (Except.error DbErr.ErrNotExists, s1) →
        reconcileStep SQLiteRepo gatewayHostLater gatewayTable =
          ⟨[DbCall.GetByIP gatewayHostLater.IpAddress, DbCall.Create gatewayHostLater],
            (SQLiteRepo.Create gatewayHostLater s1).2,
            fatalIfError (SQLiteRepo.Create gatewayHostLater s1).1
              " Fatal error trying to read the database.\n"⟩) ∧
      (∀ h s1, SQLiteRepo.GetByIP gatewayHostLater.IpAddress gatewayTable = (Except.ok h, s1) →
        reconcileStep SQLiteRepo gatewayHostLater gatewayTable =
          ⟨[DbCall.GetByIP gatewayHostLater.IpAddress, DbCall.Update h.Id gatewayHostLater],
            (SQLiteRepo.Update h.Id gatewayHostLater s1).2,
            fatalIfError (SQLiteRepo.Update h.Id gatewayHostLater s1).1
              " fatal error when updating a record.\n"⟩) ∧
      (∀ err s1, SQLiteRepo.GetByIP gatewayHostLater.IpAddress gatewayTable =
          (Except.error err, s1) → err ≠ DbErr.ErrNotExists →
        reconcileStep SQLiteRepo gatewayHostLater gatewayTable =
          ⟨[DbCall.GetByIP gatewayHostLater.IpAddress], s1,
            some " Couldnt access the database. Fatal error.\n"⟩) ∧
      (reconcileStep (recording SQLiteRepo) gatewayHostLater (gatewayTable, [])).store =
        ((reconcileStep SQLiteRepo gatewayHostLater gatewayTable).store,
          (reconcileStep SQLiteRepo gatewayHostLater gatewayTable).calls)) :=
  ⟨by decide,
    C10_reconcile_create_or_update SQLiteRepo gatewayHostLater gatewayTable (by decide)⟩

/-! ## `NetSweep` -/

theorem advance_some (src dst : TaskPc) (l : List Task) : ∀ (j : Nat) (l1 : List Task),
    advance src dst j l = some l1 →
      ∃ t, l[j]? = some t ∧ t.pc = src ∧ l1.length = l.length ∧
        l1.map Task.target = l.map Task.target := by
  induction l with
  | nil => intro j l1 h; cases j <;> simp [advance] at h
  | cons t ts ih =>
    intro j l1 h
    cases j with
    | zero =>
      simp only [advance] at h
      split at h
      · rename_i hpc
        simp only [Option.some.injEq] at h
        subst h
        exact ⟨t, by simp, hpc, rfl, rfl⟩
      · exact absurd h (by simp)
    | succ j =>
      simp only [advance, Option.map_eq_some'] at h
      obtain ⟨r, hr, rfl⟩ := h
      obtain ⟨u, hu, hpc, hlen, hmap⟩ := ih j r hr
      exact ⟨u, by simpa using hu, hpc, by simp [hlen], by simp [hmap]⟩

theorem advance_enabled (src dst : TaskPc) (l : List Task) : ∀ (j : Nat) (t : Task),
    l[j]? = some t → t.pc = src → ∃ l1, advance src dst j l = some l1 := by
  induction l with
  | nil => intro j t h; simp at h
  | cons u us ih =>
    intro j t h hpc
    cases j with
    | zero =>
      simp only [List.getElem?_cons_zero, Option.some.injEq] at h
      subst h
      exact ⟨{ u with pc := dst } :: us, by simp [advance, hpc]⟩
    | succ j =>
      simp only [List.getElem?_cons_succ] at h
      obtain ⟨l1, hl1⟩ := ih j t h hpc
      exact ⟨u :: l1, by simp [advance, hl1]⟩

theorem advance_finishedCount_send (l : List Task) : ∀ (j : Nat) (l1 : List Task),
    advance TaskPc.scanning TaskPc.sent j l = some l1 → finishedCount l1 = finishedCount l := by
  induction l with
  | nil => intro j l1 h; cases j <;> simp [advance] at h
  | cons t ts ih =>
    intro j l1 h
    cases j with
    | zero =>
      simp only [advance] at h
      split at h
      · rename_i hpc
        simp only [Option.some.injEq] at h
        subst h
        simp [finishedCount, List.countP_cons, hpc]
      · exact absurd h (by simp)
    | succ j =>
      simp only [advance, Option.map_eq_some'] at h
      obtain ⟨r, hr, rfl⟩ := h
      have := ih j r hr
      simp only [finishedCount] at this
      simp [finishedCount, List.countP_cons, this]

theorem advance_finishedCount_done (l : List Task) : ∀ (j : Nat) (l1 : List Task),
    advance TaskPc.sent TaskPc.finished j l = some l1 →
      finishedCount l1 = finishedCount l + 1 := by
  induction l with
  | nil => intro j l1 h; cases j <;> simp [advance] at h
  | cons t ts ih =>
    intro j l1 h
    cases j with
    | zero =>
      simp only [advance] at h
      split at h
      · rename_i hpc
        simp only [Option.some.injEq] at h
        subst h
        simp [finishedCount, List.countP_cons, hpc]
      · exact absurd h (by simp)
    | succ j =>
      simp only [advance, Option.map_eq_some'] at h
      obtain ⟨r, hr, rfl⟩ := h
      have := ih j r hr
      simp only [finishedCount] at this
      simp only [finishedCount, List.countP_cons, this]
      omega

theorem advance_delivered_send (mkHost : String → Host) (l : List Task) :
    ∀ (j : Nat) (l1 : List Task) (t : Task),
      advance TaskPc.scanning TaskPc.sent j l = some l1 → l[j]? = some t →
      List.Perm (delivered mkHost l1) (delivered mkHost l ++ [mkHost t.target]) := by
  induction l with
  | nil => intro j l1 t h; cases j <;> simp [advance] at h
  | cons u us ih =>
    intro j l1 t h hget
    cases j with
    | zero =>
      simp only [advance] at h
      simp only [List.getElem?_cons_zero, Option.some.injEq] at hget
      subst hget
      split at h
      · rename_i hpc
        simp only [Option.some.injEq] at h
        subst h
        simp only [delivered, List.filter_cons, hpc]
        simp only [ne_eq, reduceCtorEq, not_false_eq_true, decide_True, if_true, List.map_cons,
          not_true_eq_false, decide_False, Bool.false_eq_true, if_false]
        exact (List.perm_append_singleton _ _).symm
      · exact absurd h (by simp)
    | succ j =>
      simp only [advance, Option.map_eq_some'] at h
      obtain ⟨r, hr, rfl⟩ := h
      simp only [List.getElem?_cons_succ] at hget
      have hp := ih j r t hr hget
      simp only [delivered] at hp
      simp only [delivered, List.filter_cons]
      split
      · simp only [List.map_cons, List.cons_append]
        exact List.Perm.cons _ hp
      · exact hp

theorem advance_delivered_done (mkHost : String → Host) (l : List Task) :
    ∀ (j : Nat) (l1 : List Task),
      advance TaskPc.sent TaskPc.finished j l = some l1 →
      delivered mkHost l1 = delivered mkHost l := by
  induction l with
  | nil => intro j l1 h; cases j <;> simp [advance] at h
  | cons u us ih =>
    intro j l1 h
    cases j with
    | zero =>
      simp only [advance] at h
      split at h
      · rename_i hpc
        simp only [Option.some.injEq] at h
        subst h
        simp [delivered, List.filter_cons, hpc]
      · exact absurd h (by simp)
    | succ j =>
      simp only [advance, Option.map_eq_some'] at h
      obtain ⟨r, hr, rfl⟩ := h
      have hp := ih j r hr
      simp only [delivered] at hp
      simp only [delivered, List.filter_cons]
      split
      · simp only [List.map_cons, hp]
      · exact hp

theorem advance_stepsLeft (src dst : TaskPc) (l : List Task)
    (hw : ∀ t : Task, t.pc = src → ({ t with pc := dst } : Task).stepsLeft + 1 = t.stepsLeft) :
    ∀ (j : Nat) (l1 : List Task), advance src dst j l = some l1 →
      (l1.map Task.stepsLeft).sum + 1 = (l.map Task.stepsLeft).sum := by
  induction l with
  | nil => intro j l1 h; cases j <;> simp [advance] at h
  | cons u us ih =>
    intro j l1 h
    cases j with
    | zero =>
      simp only [advance] at h
      split at h
      · rename_i hpc
        simp only [Option.some.injEq] at h
        subst h
        have := hw u hpc
        simp only [List.map_cons, List.sum_cons]
        omega
      · exact absurd h (by simp)
    | succ j =>
      simp only [advance, Option.map_eq_some'] at h
      obtain ⟨r, hr, rfl⟩ := h
      have := ih j r hr
      simp only [List.map_cons, List.sum_cons]
      omega
theorem finishedCount_le (l : List Task) : finishedCount l ≤ l.length := List.countP_le_length _

theorem all_finished (l : List Task) (h : finishedCount l = l.length) :
    ∀ t ∈ l, t.pc = TaskPc.finished := by
  intro t ht
  have := (List.countP_eq_length (p := fun t : Task => decide (t.pc = TaskPc.finished))).mp h t ht
  simpa using this

theorem delivered_all_finished (mkHost : String → Host) (l : List Task)
    (h : finishedCount l = l.length) :
    delivered mkHost l = (l.map Task.target).map mkHost := by
  have hall := all_finished l h
  unfold delivered
  rw [List.filter_eq_self.mpr, List.map_map]
  · rfl
  · intro t ht
    simp [hall t ht]

theorem Sweep.init_Inv (mkHost : String → Host) (ips : List Bytes) :
    Sweep.Inv mkHost ips Sweep.init := by
  simp [Sweep.Inv, Sweep.init, delivered, finishedCount]

/-- Every step of `NetSweep` keeps the invariant. -/
theorem NetSweep.step_Inv (mkHost : String → Host) (ips : List Bytes) (a : Action)
    (s s1 : Sweep) (hinv : Sweep.Inv mkHost ips s) (h : NetSweep.step mkHost ips a s = some s1) :
    Sweep.Inv mkHost ips s1 := by
  obtain ⟨hp, ht, hperm, hphase⟩ := hinv
  cases a with
  | main =>
    simp only [NetSweep.step] at h
    cases hm : s.main with
    | loop i =>
      simp only [hm] at h hphase
      obtain ⟨hlen, hi, hwg, hcl, hcs⟩ := hphase
      by_cases hlt : i < ips.length
      · rw [if_pos hlt] at h
        simp only [Option.some.injEq] at h
        subst h
        refine ⟨hp, ht, hperm, ?_⟩
        simp only
        exact ⟨hlen, hlt, by omega, hcl, hcs⟩
      · rw [if_neg hlt] at h
        simp only [Option.some.injEq] at h
        subst h
        refine ⟨hp, ht, hperm, ?_⟩
        simp only
        have : i = ips.length := by omega
        exact ⟨by omega, by omega, hcl, hcs⟩
    | spawn i =>
      simp only [hm] at h hphase
      obtain ⟨hlen, hi, hwg, hcl, hcs⟩ := hphase
      cases hget : ips[i]? with
      | none => simp [hget] at h
      | some ip =>
        simp only [hget, Option.some.injEq] at h
        subst h
        refine ⟨hp, ?_, ?_, ?_⟩
        · simp only [List.map_append, List.map_cons, List.map_nil, List.length_append,
            List.length_singleton, hlen]
          rw [List.take_succ, hget, List.map_append, ht, hlen]
          rfl
        · have hd : delivered mkHost (s.tasks ++ [{ target := ipString ip, pc := TaskPc.scanning }]) =
              delivered mkHost s.tasks := by
            simp [delivered, List.filter_append]
          rw [hd]
          exact hperm
        · have hf : finishedCount (s.tasks ++ [{ target := ipString ip, pc := TaskPc.scanning }]) =
              finishedCount s.tasks := by
            simp [finishedCount, List.countP_append]
          simp only [hf, List.length_append, List.length_singleton]
          exact ⟨by omega, by omega, by omega, hcl, hcs⟩
    | wait =>
      simp only [hm] at h hphase
      obtain ⟨hlen, hwg, hcl, hcs⟩ := hphase
      by_cases hz : s.wg = 0
      · rw [if_pos hz] at h
        simp only [Option.some.injEq] at h
        subst h
        refine ⟨hp, ht, hperm, ?_⟩
        simp only
        exact ⟨hlen, by omega, hz, hcl, hcs⟩
      · rw [if_neg hz] at h
        exact absurd h (by simp)
    | close =>
      simp only [hm] at h hphase
      obtain ⟨hlen, hfc, hwg, hcl, hcs⟩ := hphase
      simp only [Option.some.injEq] at h
      subst h
      refine ⟨by simp [hp, hcl], ht, hperm, ?_⟩
      simp [hlen, hfc, hcs]
    | returned =>
      simp only [hm] at h
      exact absurd h (by simp)
  | send j =>
    simp only [NetSweep.step] at h
    cases hget : s.tasks[j]? with
    | none => simp [hget] at h
    | some t =>
      cases hadv : advance TaskPc.scanning TaskPc.sent j s.tasks with
      | none => simp [hget, hadv] at h
      | some ts =>
        simp only [hget, hadv, Option.some.injEq] at h
        subst h
        obtain ⟨u, hu, hpc, hlen1, hmap1⟩ := advance_some _ _ _ _ _ hadv
        have hut : u = t := by rw [hget] at hu; exact (Option.some.inj hu).symm
        subst hut
        have hfc := advance_finishedCount_send _ _ _ hadv
        have hmem : u ∈ s.tasks := List.getElem?_mem hget
        have hnotall : finishedCount s.tasks ≠ s.tasks.length := by
          intro e
          have := all_finished _ e u hmem
          rw [hpc] at this
          exact absurd this (by simp)
        have hclosed : s.closed = false := by
          cases hm : s.main <;> simp only [hm] at hphase
          · exact hphase.2.2.2.1
          · exact hphase.2.2.2.1
          · exact hphase.2.2.1
          · exact hphase.2.2.2.1
          · exact absurd (hphase.2.1.trans hphase.1.symm) hnotall
        refine ⟨by simp [hp, hclosed], ?_, ?_, ?_⟩
        · simp only [hmap1, hlen1]
          exact ht
        · exact (List.Perm.append_right _ hperm).trans
            (advance_delivered_send mkHost _ _ _ _ hadv hget).symm
        · simp only [hfc, hlen1]
          exact hphase
  | done j =>
    simp only [NetSweep.step] at h
    cases hadv : advance TaskPc.sent TaskPc.finished j s.tasks with
    | none => simp [hadv] at h
    | some ts =>
      simp only [hadv, Option.some.injEq] at h
      subst h
      obtain ⟨u, hu, hpc, hlen1, hmap1⟩ := advance_some _ _ _ _ _ hadv
      have hfc := advance_finishedCount_done _ _ _ hadv
      have hle := finishedCount_le ts
      rw [hfc, hlen1] at hle
      have hd := advance_delivered_done mkHost _ _ _ hadv
      have hwg : ¬ (s.wg - 1 < 0) := by
        cases hm : s.main <;> simp only [hm] at hphase <;> omega
      refine ⟨by simp only [hp, Bool.false_or, decide_eq_false_iff_not]; exact hwg, ?_, ?_, ?_⟩
      · simp only [hmap1, hlen1]
        exact ht
      · simp only [hd]
        exact hperm
      · simp only [hfc, hlen1]
        cases hm : s.main <;> simp only [hm] at hphase ⊢
        · exact ⟨hphase.1, hphase.2.1, by push_cast; omega, hphase.2.2.2⟩
        · exact ⟨hphase.1, hphase.2.1, by push_cast; omega, hphase.2.2.2⟩
        · exact ⟨hphase.1, by push_cast; omega, hphase.2.2⟩
        · omega
        · omega
theorem NetSweep.run_Inv (mkHost : String → Host) (ips : List Bytes) (sched : List Action) :
    ∀ (s s1 : Sweep), Sweep.Inv mkHost ips s → NetSweep.run mkHost ips sched s = some s1 →
      Sweep.Inv mkHost ips s1 := by
  induction sched with
  | nil =>
    intro s s1 hinv h
    simp only [NetSweep.run, Option.some.injEq] at h
    exact h ▸ hinv
  | cons a rest ih =>
    intro s s1 hinv h
    simp only [NetSweep.run] at h
    cases hstep : NetSweep.step mkHost ips a s with
    | none => simp [hstep] at h
    | some s2 =>
      simp only [hstep] at h
      exact ih s2 s1 (NetSweep.step_Inv mkHost ips a s s2 hinv hstep) h

/-- Every step of `NetSweep` uses up one of the steps left. -/
theorem NetSweep.step_stepsLeft (mkHost : String → Host) (ips : List Bytes) (a : Action)
    (s s1 : Sweep) (hinv : Sweep.Inv mkHost ips s) (h : NetSweep.step mkHost ips a s = some s1) :
    s1.stepsLeft ips.length + 1 = s.stepsLeft ips.length := by
  obtain ⟨-, -, -, hphase⟩ := hinv
  cases a with
  | main =>
    simp only [NetSweep.step] at h
    cases hm : s.main with
    | loop i =>
      simp only [hm] at h hphase
      by_cases hlt : i < ips.length
      · rw [if_pos hlt] at h
        simp only [Option.some.injEq] at h
        subst h
        simp only [Sweep.stepsLeft, hm]
        omega
      · rw [if_neg hlt] at h
        simp only [Option.some.injEq] at h
        subst h
        simp only [Sweep.stepsLeft, hm]
        omega
    | spawn i =>
      simp only [hm] at h hphase
      cases hget : ips[i]? with
      | none => simp [hget] at h
      | some ip =>
        simp only [hget, Option.some.injEq] at h
        subst h
        simp only [Sweep.stepsLeft, hm, List.map_append, List.sum_append, List.map_cons,
          List.map_nil, List.sum_cons, List.sum_nil, Task.stepsLeft]
        omega
    | wait =>
      simp only [hm] at h
      split at h
      · simp only [Option.some.injEq] at h
        subst h
        simp only [Sweep.stepsLeft, hm]
        omega
      · exact absurd h (by simp)
    | close =>
      simp only [hm, Option.some.injEq] at h
      subst h
      simp only [Sweep.stepsLeft, hm]
      omega
    | returned =>
      simp only [hm] at h
      exact absurd h (by simp)
  | send j =>
    simp only [NetSweep.step] at h
    cases hget : s.tasks[j]? with
    | none => simp [hget] at h
    | some t =>
      cases hadv : advance TaskPc.scanning TaskPc.sent j s.tasks with
      | none => simp [hget, hadv] at h
      | some ts =>
        simp only [hget, hadv, Option.some.injEq] at h
        subst h
        have := advance_stepsLeft _ _ _ (fun t ht => by simp [Task.stepsLeft, ht]) _ _ hadv
        simp only [Sweep.stepsLeft]
        omega
  | done j =>
    simp only [NetSweep.step] at h
    cases hadv : advance TaskPc.sent TaskPc.finished j s.tasks with
    | none => simp [hadv] at h
    | some ts =>
      simp only [hadv, Option.some.injEq] at h
      subst h
      have := advance_stepsLeft _ _ _ (fun t ht => by simp [Task.stepsLeft, ht]) _ _ hadv
      simp only [Sweep.stepsLeft]
      omega

theorem NetSweep.run_stepsLeft (mkHost : String → Host) (ips : List Bytes)
    (sched : List Action) : ∀ (s s1 : Sweep), Sweep.Inv mkHost ips s →
      NetSweep.run mkHost ips sched s = some s1 →
      sched.length + s1.stepsLeft ips.length = s.stepsLeft ips.length := by
  induction sched with
  | nil =>
    intro s s1 _ h
    simp only [NetSweep.run, Option.some.injEq] at h
    subst h
    simp
  | cons a rest ih =>
    intro s s1 hinv h
    simp only [NetSweep.run] at h
    cases hstep : NetSweep.step mkHost ips a s with
    | none => simp [hstep] at h
    | some s2 =>
      simp only [hstep] at h
      have h1 := NetSweep.step_stepsLeft mkHost ips a s s2 hinv hstep
      have h2 := ih s2 s1 (NetSweep.step_Inv mkHost ips a s s2 hinv hstep) h
      simp only [List.length_cons]
      omega

/-- Some goroutine can take a step as long as `NetSweep` has not returned. -/
theorem NetSweep.progress (mkHost : String → Host) (ips : List Bytes) (s : Sweep)
    (hinv : Sweep.Inv mkHost ips s) (hmain : s.main ≠ MainPc.returned) :
    ∃ a, (NetSweep.step mkHost ips a s).isSome = true := by
  obtain ⟨-, -, -, hphase⟩ := hinv
  cases hm : s.main with
  | loop i =>
    by_cases hlt : i < ips.length
    · exact ⟨Action.main, by simp only [NetSweep.step, hm, if_pos hlt, Option.isSome_some]⟩
    · exact ⟨Action.main, by simp only [NetSweep.step, hm, if_neg hlt, Option.isSome_some]⟩
  | spawn i =>
    simp only [hm] at hphase
    have hi : i < ips.length := hphase.2.1
    exact ⟨Action.main, by simp only [NetSweep.step, hm, List.getElem?_eq_getElem hi, Option.isSome_some]⟩
  | wait =>
    simp only [hm] at hphase
    obtain ⟨hlen, hwg, -, -⟩ := hphase
    by_cases hz : s.wg = 0
    · exact ⟨Action.main, by simp only [NetSweep.step, hm, if_pos hz, Option.isSome_some]⟩
    · have hne : finishedCount s.tasks ≠ s.tasks.length := by omega
      have hex : ∃ t ∈ s.tasks, t.pc ≠ TaskPc.finished := by
        by_contra hc
        push_neg at hc
        apply hne
        exact (List.countP_eq_length (p := fun t : Task => decide (t.pc = TaskPc.finished))).mpr
          (fun t ht => by simpa using hc t ht)
      obtain ⟨t, ht, hpc⟩ := hex
      obtain ⟨j, hj⟩ := List.getElem?_of_mem ht
      cases hpc2 : t.pc with
      | scanning =>
        obtain ⟨l1, hl1⟩ := advance_enabled TaskPc.scanning TaskPc.sent _ j t hj hpc2
        exact ⟨Action.send j, by simp only [NetSweep.step, hj, hl1, Option.isSome_some]⟩
      | sent =>
        obtain ⟨l1, hl1⟩ := advance_enabled TaskPc.sent TaskPc.finished _ j t hj hpc2
        exact ⟨Action.done j, by simp only [NetSweep.step, hl1, Option.isSome_some]⟩
      | finished => exact absurd hpc2 hpc
  | close => exact ⟨Action.main, by simp only [NetSweep.step, hm, Option.isSome_some]⟩
  | returned => exact absurd hm hmain

/-- Once the channel is closed it has carried exactly one value per address. -/
theorem Sweep.closed_scanned (mkHost : String → Host) (ips : List Bytes) (s : Sweep)
    (hinv : Sweep.Inv mkHost ips s) (hc : s.closed = true) :
    List.Perm s.scanned (sweepHosts mkHost ips) ∧ s.main = MainPc.returned ∧ s.closes = 1 := by
  obtain ⟨-, ht, hperm, hphase⟩ := hinv
  cases hm : s.main <;> simp only [hm] at hphase
  · exact absurd hc (by simp [hphase.2.2.2.1])
  · exact absurd hc (by simp [hphase.2.2.2.1])
  · exact absurd hc (by simp [hphase.2.2.1])
  · exact absurd hc (by simp [hphase.2.2.2.1])
  · obtain ⟨hlen, hfc, -, hcs⟩ := hphase
    refine ⟨?_, rfl, hcs⟩
    rw [delivered_all_finished mkHost _ (hfc.trans hlen.symm), ht, hlen, List.take_length,
      List.map_map] at hperm
    exact hperm
/-- C8. In every run of `NetSweep` over an address list, under every schedule of its
goroutines: no step panics (no send on the closed channel, no second close); once the
channel is closed it has carried exactly one `Host` per input address (a permutation
of the hosts of the addresses, so exactly N values) and was closed exactly once;
`NetSweep` returns only with the channel closed; as long as it has not returned some
goroutine can take a step; and every run takes exactly `4 * N + 3` steps minus the
steps still left, so no schedule runs forever. -/
theorem C8_sweep_publishes_each_address_once (dial : Dialer) (lookup : Resolver)
    (ports : List Int) (ips : List Bytes) (sched : List Action) (s : Sweep)
    (h : NetSweep.run (sweepHost dial lookup ports) ips sched Sweep.init = some s) :
    s.panicked = false ∧ s.closes ≤ 1 ∧
      (s.closed = true →
        List.Perm s.scanned (sweepHosts (sweepHost dial lookup ports) ips) ∧
          s.scanned.length = ips.length ∧ s.closes = 1) ∧
      (s.main = MainPc.returned → s.closed = true) ∧
      (s.main ≠ MainPc.returned →
        ∃ a, (NetSweep.step (sweepHost dial lookup ports) ips a s).isSome = true) ∧
      sched.length + s.stepsLeft ips.length = 4 * ips.length + 3 := by
  have hinv := NetSweep.run_Inv _ ips sched _ s (Sweep.init_Inv _ ips) h
  have hsteps := NetSweep.run_stepsLeft _ ips sched _ s (Sweep.init_Inv _ ips) h
  refine ⟨hinv.1, ?_, ?_, ?_, NetSweep.progress _ ips s hinv, ?_⟩
  · obtain ⟨-, -, -, hphase⟩ := hinv
    cases hm : s.main <;> simp only [hm] at hphase <;> omega
  · intro hc
    obtain ⟨hperm, -, hcs⟩ := Sweep.closed_scanned _ ips s hinv hc
    refine ⟨hperm, ?_, hcs⟩
    rw [hperm.length_eq]
    simp [sweepHosts]
  · intro hm
    obtain ⟨-, -, -, hphase⟩ := hinv
    simp only [hm] at hphase
    exact hphase.2.2.1
  · rw [hsteps]
    simp [Sweep.stepsLeft, Sweep.init]

/-- C8 on three addresses whose tasks complete out of order: the channel carried the
three hosts, in the order 192.168.1.2, 192.168.1.3, 192.168.1.1, and was closed once. -/
theorem C8_sweep_publishes_each_address_once_witness :
    NetSweep.run (sweepHost webOnly noNames [22, 80]) threeIps scrambledSchedule Sweep.init =
        some scrambledEnd ∧
      (scrambledEnd.panicked = false ∧ scrambledEnd.closes ≤ 1 ∧
        (scrambledEnd.closed = true →
          List.Perm scrambledEnd.scanned (sweepHosts (sweepHost webOnly noNames [22, 80]) threeIps) ∧
            scrambledEnd.scanned.length = threeIps.length ∧ scrambledEnd.closes = 1) ∧
        (scrambledEnd.main = MainPc.returned → scrambledEnd.closed = true) ∧
        (scrambledEnd.main ≠ MainPc.returned →
          ∃ a, (NetSweep.step (sweepHost webOnly noNames [22, 80]) threeIps a
            scrambledEnd).isSome = true) ∧
        scrambledSchedule.length + scrambledEnd.stepsLeft threeIps.length =
          4 * threeIps.length + 3) :=
  ⟨by decide,
    C8_sweep_publishes_each_address_once webOnly noNames [22, 80] threeIps scrambledSchedule
      scrambledEnd (by decide)⟩

/-! ## Reconciliation against the SQLite store -/

/-- First sighting: the address is looked up, not found, and created under the next id. -/
theorem reconcileStep_first (t : Table) (x : Host) (hx : x.ListeningPorts ≠ [])
    (hnew : ∀ r ∈ t.rows, r.ipv4_address ≠ x.IpAddress) :
    reconcileStep SQLiteRepo x t =
      ⟨[DbCall.GetByIP x.IpAddress, DbCall.Create x],
        ⟨t.rows ++ [⟨t.seq + 1, x.Fqdn, x.IpAddress, x.PortString⟩], t.seq + 1⟩, none⟩ := by
  have hlen : x.ListeningPorts.length > 0 := List.length_pos.mpr hx
  have hfind : t.rows.find? (fun r => decide (r.ipv4_address = x.IpAddress)) = none := by
    rw [List.find?_eq_none]
    intro r hr
    simpa using hnew r hr
  have hany : t.rows.any (fun r => decide (r.ipv4_address = x.IpAddress)) = false := by
    rw [List.any_eq_false]
    intro r hr
    simpa using hnew r hr
  simp only [reconcileStep, hlen, if_true, SQLiteRepo, SQLiteRepo.GetByIP, hfind,
    SQLiteRepo.Create, hany]
  simp

/-- Second sighting: the record created by the first one is found and updated under
its id; the other rows stay as they are. -/
theorem reconcileStep_second (t : Table) (x : Host) (id : Int) (f p : String)
    (hx : x.ListeningPorts ≠ []) (hid : 0 < id)
    (hnew : ∀ r ∈ t.rows, r.ipv4_address ≠ x.IpAddress ∧ r.id ≠ id) :
    reconcileStep SQLiteRepo x ⟨t.rows ++ [⟨id, f, x.IpAddress, p⟩], id⟩ =
      ⟨[DbCall.GetByIP x.IpAddress, DbCall.Update id x],
        ⟨t.rows ++ [⟨id, x.Fqdn, x.IpAddress, x.PortString⟩], id⟩, none⟩ := by
  have hlen : x.ListeningPorts.length > 0 := List.length_pos.mpr hx
  have hfind : (t.rows ++ [(⟨id, f, x.IpAddress, p⟩ : Row)]).find?
      (fun r => decide (r.ipv4_address = x.IpAddress)) = some ⟨id, f, x.IpAddress, p⟩ := by
    have h0 : t.rows.find? (fun r => decide (r.ipv4_address = x.IpAddress)) = none := by
      rw [List.find?_eq_none]
      intro r hr
      simpa using (hnew r hr).1
    rw [List.find?_append, h0]
    simp [List.find?]
  have hany1 : (t.rows ++ [(⟨id, f, x.IpAddress, p⟩ : Row)]).any (fun r => decide (r.id = id)) =
      true := by
    simp
  have hany2 : (t.rows ++ [(⟨id, f, x.IpAddress, p⟩ : Row)]).any
      (fun r => decide (r.id ≠ id ∧ r.ipv4_address = x.IpAddress)) = false := by
    rw [List.any_eq_false]
    intro r hr
    rcases List.mem_append.mp hr with h | h
    · simp [(hnew r h).1]
    · simp only [List.mem_singleton] at h
      subst h
      simp
  have hmap : (t.rows ++ [(⟨id, f, x.IpAddress, p⟩ : Row)]).map (fun r =>
      if r.id = id then (⟨r.id, x.Fqdn, x.IpAddress, x.PortString⟩ : Row) else r) =
      t.rows ++ [⟨id, x.Fqdn, x.IpAddress, x.PortString⟩] := by
    rw [List.map_append]
    congr 1
    · conv_rhs => rw [← List.map_id t.rows]
      apply List.map_congr_left
      intro r hr
      simp [(hnew r hr).2]
    · simp
  have hne : id ≠ 0 := by omega
  simp only [reconcileStep, hlen, if_true, SQLiteRepo, SQLiteRepo.GetByIP, hfind, Row.toHost,
    SQLiteRepo.Update, hne, if_false, hany1, hany2, hmap]
  simp

/-- C11. Against the SQLite store, in a table that has no record for an address, two
scan results for that address with open ports are reconciled without ending the
process by the calls `GetByIP`, `Create`, `GetByIP`, `Update`; after the first the table
has exactly one record for the address, after the second it still has exactly one,
with the same id and with the name and port string of the second result. -/
theorem C11_second_sighting_updates_same_record (t : Table) (x1 x2 : Host) (hwf : t.WF)
    (hip : x2.IpAddress = x1.IpAddress) (h1 : x1.ListeningPorts ≠ [])
    (h2 : x2.ListeningPorts ≠ []) (hnew : ∀ r ∈ t.rows, r.ipv4_address ≠ x1.IpAddress) :
    (reconcileLoop SQLiteRepo [x1, x2] t).fatal = none ∧
      (reconcileLoop SQLiteRepo [x1, x2] t).calls =
        [DbCall.GetByIP x1.IpAddress, DbCall.Create x1, DbCall.GetByIP x1.IpAddress,
          DbCall.Update (t.seq + 1) x2] ∧
      (reconcileStep SQLiteRepo x1 t).store.rowsOf x1.IpAddress =
        [⟨t.seq + 1, x1.Fqdn, x1.IpAddress, x1.PortString⟩] ∧
      (reconcileLoop SQLiteRepo [x1, x2] t).store.rowsOf x1.IpAddress =
        [⟨t.seq + 1, x2.Fqdn, x1.IpAddress, x2.PortString⟩] := by
  obtain ⟨hseq, hids, -, -⟩ := hwf
  have hs1 := reconcileStep_first t x1 h1 hnew
  have hs2 := reconcileStep_second t x2 (t.seq + 1) x1.Fqdn x1.PortString h2 (by omega)
    (fun r hr => ⟨by rw [hip]; exact hnew r hr, by have := (hids r hr).2; omega⟩)
  rw [hip] at hs2
  have hfilter : ∀ row : Row, row.ipv4_address = x1.IpAddress →
      (t.rows ++ [row]).filter (fun r => decide (r.ipv4_address = x1.IpAddress)) = [row] := by
    intro row hrow
    rw [List.filter_append, List.filter_eq_nil_iff.mpr (fun r hr => by simpa using hnew r hr)]
    simp [hrow]
  refine ⟨?_, ?_, ?_, ?_⟩
  · simp [reconcileLoop, hs1, hs2]
  · simp [reconcileLoop, hs1, hs2, hip]
  · simp only [hs1, Table.rowsOf]
    exact hfilter _ rfl
  · simp only [reconcileLoop, hs1, hs2, Table.rowsOf]
    exact hfilter _ rfl
/-- C11 on a table that holds the record of another host: 10.0.0.7 is created under
id 2 with `80,8080`, and the second sighting leaves one record, id 2, with `22,443`. -/
theorem C11_second_sighting_updates_same_record_witness :
    (reconcileLoop SQLiteRepo [gatewayHost, gatewayHostLater] nasTable).fatal = none ∧
      (reconcileLoop SQLiteRepo [gatewayHost, gatewayHostLater] nasTable).calls =
        [DbCall.GetByIP gatewayHost.IpAddress, DbCall.Create gatewayHost,
          DbCall.GetByIP gatewayHost.IpAddress, DbCall.Update (nasTable.seq + 1) gatewayHostLater] ∧
      (reconcileStep SQLiteRepo gatewayHost nasTable).store.rowsOf gatewayHost.IpAddress =
        [⟨nasTable.seq + 1, gatewayHost.Fqdn, gatewayHost.IpAddress, gatewayHost.PortString⟩] ∧
      (reconcileLoop SQLiteRepo [gatewayHost, gatewayHostLater] nasTable).store.rowsOf
          gatewayHost.IpAddress =
        [⟨nasTable.seq + 1, gatewayHostLater.Fqdn, gatewayHost.IpAddress,
          gatewayHostLater.PortString⟩] :=
  C11_second_sighting_updates_same_record nasTable gatewayHost gatewayHostLater
    (by unfold Table.WF; decide) (by decide) (by decide) (by decide) (by decide)

/-- C12. For a scan result without open ports one round of the reconciliation loop
makes no call to the store (no `GetByIP`, `Create` or `Update`), leaves the store as it
is and does not end the process; the loop goes on with the next result. -/
theorem C12_empty_result_touches_no_storage {σ : Type} (db : TopologyDatabaseIO σ) (x : Host)
    (s : σ) (rest : List Host) (hx : x.ListeningPorts = []) :
    reconcileStep db x s = ⟨[], s, none⟩ ∧
      reconcileLoop db (x :: rest) s = reconcileLoop db rest s := by
  have hs : reconcileStep db x s = ⟨[], s, none⟩ := by
    simp [reconcileStep, hx]
  refine ⟨hs, ?_⟩
  rw [reconcileLoop]
  simp only [hs, List.nil_append]

/-- C12 on the SQLite store: a result without open ports leaves the table as it is,
and the result after it is reconciled as if it came first. -/
theorem C12_empty_result_touches_no_storage_witness :
    silentHost.ListeningPorts = [] ∧
      reconcileStep SQLiteRepo silentHost nasTable = ⟨[], nasTable, none⟩ ∧
      reconcileLoop SQLiteRepo (silentHost :: [gatewayHost]) nasTable =
        reconcileLoop SQLiteRepo [gatewayHost] nasTable :=
  ⟨rfl, C12_empty_result_touches_no_storage SQLiteRepo silentHost nasTable [gatewayHost] rfl⟩

/-- C13 (as amended). When, for a scan result with open ports, the lookup reports
`ErrNotExists` and `Create` then returns an error, the duplicate error included, the
round ends the process after the `Create` call, and the loop consumes no further
result: the calls of the loop are those of this round. -/
theorem C13_create_error_is_fatal {σ : Type} (db : TopologyDatabaseIO σ) (x : Host)
    (s s1 s2 : σ) (e : DbErr) (rest : List Host) (hx : x.ListeningPorts ≠ [])
    (hget : db.GetByIP x.IpAddress s = (Except.error DbErr.ErrNotExists, s1))
    (hcreate : db.Create x s1 = (Except.error e, s2)) :
    reconcileStep db x s =
        ⟨[DbCall.GetByIP x.IpAddress, DbCall.Create x], s2,
          some " Fatal error trying to read the database.\n"⟩ ∧
      reconcileLoop db (x :: rest) s = reconcileStep db x s := by
  have hlen : x.ListeningPorts.length > 0 := List.length_pos.mpr hx
  have hs : reconcileStep db x s =
      ⟨[DbCall.GetByIP x.IpAddress, DbCall.Create x], s2,
        some " Fatal error trying to read the database.\n"⟩ := by
    simp [reconcileStep, hlen, hget, hcreate]
  refine ⟨hs, ?_⟩
  rw [reconcileLoop]
  simp only [hs]

/-- C13 on the SQLite store shared with a second handler that creates the record of
10.0.0.7 between the lookup and the `Create` of this one: `Create` returns the
duplicate error and the round ends the process. -/
theorem C13_create_error_is_fatal_witness :
    gatewayHost.ListeningPorts ≠ [] ∧
      (sharedRepo gatewayHost).Create gatewayHost gatewayTable =
        (Except.error DbErr.ErrDuplicate, gatewayTable) ∧
      reconcileStep (sharedRepo gatewayHost) gatewayHost ⟨[], 0⟩ =
        ⟨[DbCall.GetByIP gatewayHost.IpAddress, DbCall.Create gatewayHost], gatewayTable,
          some " Fatal error trying to read the database.\n"⟩ ∧
      reconcileLoop (sharedRepo gatewayHost) (gatewayHost :: [gatewayHostLater]) ⟨[], 0⟩ =
        reconcileStep (sharedRepo gatewayHost) gatewayHost ⟨[], 0⟩ :=
  ⟨by decide, rfl,
    C13_create_error_is_fatal (sharedRepo gatewayHost) gatewayHost ⟨[], 0⟩ gatewayTable
      gatewayTable DbErr.ErrDuplicate [gatewayHostLater] (by decide) rfl rfl⟩

/-- C13 (counterexample to the claim as written). `Create` returns the duplicate error
for 10.0.0.7, and the loop over two results ends the process in the first round: its
fatal message is set and the second result causes no call to the store. -/
theorem C13_duplicate_ends_process :
    (sharedRepo gatewayHost).Create gatewayHost gatewayTable =
        (Except.error DbErr.ErrDuplicate, gatewayTable) ∧
      reconcileLoop (sharedRepo gatewayHost) [gatewayHost, gatewayHostLater] ⟨[], 0⟩ =
        ⟨[DbCall.GetByIP "10.0.0.7", DbCall.Create gatewayHost], gatewayTable,
          some " Fatal error trying to read the database.\n"⟩ :=
  ⟨rfl, by decide⟩

/-! ## `ExecutionHandler.ServeHTTP` on a rejected address -/

/-- An error of `GetNetworkAddresses` comes with the empty mapper. -/
theorem GetNetworkAddresses_error_empty (fuel : Nat) (addr : String) (m : IpSubnetMapper)
    (err : Err) (h : GetNetworkAddresses fuel addr = Run.done (m, some err)) :
    m = IpSubnetMapper.empty := by
  unfold GetNetworkAddresses at h
  split at h
  · simp only [Run.done.injEq, Prod.mk.injEq] at h
    exact h.1.symm
  · split at h
    · exact absurd h (by simp)
    · split at h
      · simp only [Run.done.injEq, Prod.mk.injEq] at h
        exact h.1.symm
      · split at h <;> simp at h

/-- A run of `NetSweep` over no address starts no task and sends nothing. -/
theorem NetSweep.run_nil (mkHost : String → Host) (sched : List Action) (s : Sweep)
    (h : NetSweep.run mkHost [] sched Sweep.init = some s) : s.tasks = [] ∧ s.scanned = [] := by
  obtain ⟨-, ht, hperm, -⟩ := NetSweep.run_Inv mkHost [] sched _ s (Sweep.init_Inv mkHost []) h
  have htasks : s.tasks = [] := by
    simpa using ht
  refine ⟨htasks, ?_⟩
  rw [htasks] at hperm
  simpa [delivered] using hperm

/-- C14. When `GetNetworkAddresses` fails on the address of a scan request,
`ExecutionHandler.ServeHTTP` writes the error to the response and hands `NetSweep` the
empty address list; in every run of `NetSweep` on it, under every schedule, no task
is started and nothing is sent (no address is probed), and the consumer, which
reconciles what was sent, makes no call to the store and leaves it as it is. -/
theorem C14_rejected_address_probes_nothing {σ : Type} (fuel : Nat) (addr : String)
    (m : IpSubnetMapper) (err : Err) (dial : Dialer) (lookup : Resolver)
    (db : TopologyDatabaseIO σ) (t : σ) (sched : List Action) (s : Sweep)
    (hfail : GetNetworkAddresses fuel addr = Run.done (m, some err))
    (hrun : NetSweep.run (sweepHost dial lookup RetrieveScanDirectives) [] sched Sweep.init =
      some s) :
    ExecutionHandler.ServeHTTP fuel (Except.ok ⟨addr⟩) =
        Run.done ⟨[Reply.processingError err], some []⟩ ∧
      s.tasks = [] ∧ s.scanned = [] ∧ reconcileLoop db s.scanned t = ⟨[], t, none⟩ := by
  have hm := GetNetworkAddresses_error_empty fuel addr m err hfail
  subst hm
  obtain ⟨ht, hs⟩ := NetSweep.run_nil _ sched s hrun
  refine ⟨?_, ht, hs, ?_⟩
  · simp [ExecutionHandler.ServeHTTP, hfail, IpSubnetMapper.empty]
  · rw [hs]
    rfl

/-- C14 on the request for `192.168.50.1/deez` against the SQLite store: the error is
written, and `NetSweep` on the empty list returns after three steps of its main
goroutine with nothing sent. -/
theorem C14_rejected_address_probes_nothing_witness :
    GetNetworkAddresses 5 "192.168.50.1/deez" =
        Run.done (IpSubnetMapper.empty, some (Err.parseError "192.168.50.1/deez")) ∧
      NetSweep.run (sweepHost webOnly noNames RetrieveScanDirectives) []
          [Action.main, Action.main, Action.main] Sweep.init =
        some ⟨MainPc.returned, [], 0, [], true, 1, false⟩ ∧
      (ExecutionHandler.ServeHTTP 5 (Except.ok ⟨"192.168.50.1/deez"⟩) =
          Run.done ⟨[Reply.processingError (Err.parseError "192.168.50.1/deez")], some []⟩ ∧
        (⟨MainPc.returned, [], 0, [], true, 1, false⟩ : Sweep).tasks = [] ∧
        (⟨MainPc.returned, [], 0, [], true, 1, false⟩ : Sweep).scanned = [] ∧
        reconcileLoop SQLiteRepo (⟨MainPc.returned, [], 0, [], true, 1, false⟩ : Sweep).scanned
          nasTable = ⟨[], nasTable, none⟩) :=
  ⟨by decide, by decide,
    C14_rejected_address_probes_nothing 5 "192.168.50.1/deez" IpSubnetMapper.empty
      (Err.parseError "192.168.50.1/deez") webOnly noNames SQLiteRepo nasTable
      [Action.main, Action.main, Action.main] ⟨MainPc.returned, [], 0, [], true, 1, false⟩
      (by decide) (by decide)⟩

/-! ## Every IPv4 literal is a dotted quad -/

theorem isDigit_iff (c : Char) (h : isDigit c = true) :
    digitVal c < 10 ∧ c = digitChar (digitVal c) := by
  simp only [isDigit, Bool.and_eq_true, decide_eq_true_eq] at h
  refine ⟨by unfold digitVal; omega, ?_⟩
  unfold digitChar digitVal
  rw [Nat.add_sub_cancel' h.1]
  exact (Char.ofNat_toNat c).symm

theorem appendDecimal_length (v : Nat) :
    (appendDecimal v).length = if 100 ≤ v then 3 else if 10 ≤ v then 2 else 1 := by
  unfold appendDecimal
  by_cases h100 : 100 ≤ v
  · have h10 : 10 ≤ v := by omega
    simp [h100, h10]
  · by_cases h10 : 10 ≤ v <;> simp [h100, h10]

/-- One more digit behind the decimal text of an octet. -/
theorem appendDecimal_snoc (v d : Nat) (hv : 1 ≤ v) (hd : d < 10) (h : v * 10 + d ≤ 255) :
    appendDecimal v ++ [digitChar d] = appendDecimal (v * 10 + d) := by
  unfold appendDecimal
  by_cases h10 : 10 ≤ v
  · have e1 : (v * 10 + d) / 100 = v / 10 := by omega
    have e2 : (v * 10 + d) / 10 % 10 = v % 10 := by omega
    have e3 : (v * 10 + d) % 10 = d := by omega
    have e4 : v / 10 % 10 = v / 10 := by omega
    have h1 : ¬ 100 ≤ v := by omega
    have h2 : 100 ≤ v * 10 + d := by omega
    have h3 : 10 ≤ v * 10 + d := by omega
    simp [h10, h1, h2, h3, e1, e2, e3, e4]
  · have e2 : (v * 10 + d) / 10 % 10 = v := by omega
    have e3 : (v * 10 + d) % 10 = d := by omega
    have e4 : v % 10 = v := by omega
    have h1 : ¬ 100 ≤ v := by omega
    have h2 : ¬ 100 ≤ v * 10 + d := by omega
    have h3 : 10 ≤ v * 10 + d := by omega
    simp [h10, h1, h2, h3, e2, e3, e4]

theorem dottedOctets_three (acc val : Nat) (hv : val ≤ 255) :
    dottedOctets 3 acc ++ appendDecimal val = string4 (acc * 256 + val) := by
  have e1 : (acc * 256 + val) / 16777216 % 256 = acc / 256 / 256 % 256 := by omega
  have e2 : (acc * 256 + val) / 65536 % 256 = acc / 256 % 256 := by omega
  have e3 : (acc * 256 + val) / 256 % 256 = acc % 256 := by omega
  have e4 : (acc * 256 + val) % 256 = val := by omega
  simp only [dottedOctets, string4, e1, e2, e3, e4, List.nil_append, List.append_assoc,
    List.singleton_append, List.cons_append]

/-- What `parseIPv4Loop` accepts: the text read so far and the text still to read are
together the dotted quad of the result. -/
theorem parseIPv4Loop_sound : ∀ (rest : List Char) (prev : Option Char)
    (val digLen pos acc r : Nat),
    parseIPv4Loop rest prev val digLen pos acc = some r →
    pos ≤ 3 → acc < 256 ^ pos →
    (digLen = 0 → val = 0 ∧ (prev = none ∨ prev = some '.') ∧ (pos ≠ 0 → rest ≠ [])) →
    (digLen ≠ 0 → val ≤ 255 ∧ digLen = (appendDecimal val).length ∧
      ∃ d, d < 10 ∧ prev = some (digitChar d)) →
    dottedOctets pos acc ++ (octetRead val digLen ++ rest) = string4 r ∧ r < 4294967296 := by
  intro rest
  induction rest with
  | nil =>
    intro prev val digLen pos acc r h hpos hacc h0 h1
    simp only [parseIPv4Loop] at h
    split at h
    · exact absurd h (by simp)
    · have hp3 : pos = 3 := by omega
      subst hp3
      simp only [Option.some.injEq] at h
      subst h
      have hdl : digLen ≠ 0 := by
        intro e
        exact (h0 e).2.2 (by norm_num) rfl
      obtain ⟨hv, -, -⟩ := h1 hdl
      have ha : acc < 16777216 := by simpa using hacc
      refine ⟨?_, by omega⟩
      simp only [octetRead, if_neg hdl, List.append_nil]
      exact dottedOctets_three acc val hv
  | cons c rest ih =>
    intro prev val digLen pos acc r h hpos hacc h0 h1
    rw [parseIPv4Loop] at h
    by_cases hc : isDigit c = true
    · obtain ⟨hd, hcd⟩ := isDigit_iff c hc
      simp only [hc, if_true] at h
      split at h
      · exact absurd h (by simp)
      · rename_i hlead
        split at h
        · exact absurd h (by simp)
        · rename_i hbig
          have hv' : val * 10 + digitVal c ≤ 255 := by omega
          have hread : octetRead val digLen ++ [c] =
              octetRead (val * 10 + digitVal c) (digLen + 1) := by
            simp only [octetRead, Nat.succ_ne_zero, if_false]
            by_cases hdl : digLen = 0
            · obtain ⟨hval, -, -⟩ := h0 hdl
              subst hval
              simp only [hdl, if_true, List.nil_append, Nat.zero_mul, Nat.zero_add]
              have : appendDecimal (digitVal c) = [digitChar (digitVal c)] := by
                have h1' : ¬ 100 ≤ digitVal c := by omega
                have h2' : ¬ 10 ≤ digitVal c := by omega
                have h3' : digitVal c % 10 = digitVal c := by omega
                simp [appendDecimal, h1', h2', h3']
              rw [this, ← hcd]
            · obtain ⟨hval, hlen, -⟩ := h1 hdl
              have hpos1 : 1 ≤ val := by
                by_contra hz
                have hz0 : val = 0 := by omega
                rw [hz0, appendDecimal_length] at hlen
                simp at hlen
                exact hlead ⟨hlen, hz0⟩
              rw [if_neg hdl]
              conv_lhs => rw [hcd]
              exact appendDecimal_snoc val (digitVal c) hpos1 hd hv'
          have hlen' : digLen + 1 = (appendDecimal (val * 10 + digitVal c)).length := by
            by_cases hdl : digLen = 0
            · obtain ⟨hval, -, -⟩ := h0 hdl
              subst hval
              rw [appendDecimal_length]
              simp only [hdl, Nat.zero_mul, Nat.zero_add]
              rw [if_neg (by omega), if_neg (by omega)]
            · obtain ⟨hval, hlen, -⟩ := h1 hdl
              rw [appendDecimal_length] at hlen ⊢
              split at hlen
              · omega
              · split at hlen
                · have h1' : 100 ≤ val * 10 + digitVal c := by omega
                  simp [h1', hlen]
                · have hval1 : val ≠ 0 := fun e => hlead ⟨hlen, e⟩
                  have h1' : ¬ 100 ≤ val * 10 + digitVal c := by omega
                  have h2' : 10 ≤ val * 10 + digitVal c := by omega
                  simp [h1', h2', hlen]
          have := ih (some c) (val * 10 + digitVal c) (digLen + 1) pos acc r h hpos hacc
            (fun e => absurd e (Nat.succ_ne_zero _))
            (fun _ => ⟨hv', hlen', digitVal c, hd, by rw [← hcd]⟩)
          rw [← hread, List.append_assoc, List.singleton_append] at this
          exact this
    · simp only [hc, Bool.false_eq_true, if_false] at h
      split at h
      · rename_i hdot
        subst hdot
        split at h
        · exact absurd h (by simp)
        · rename_i hcond
          split at h
          · exact absurd h (by simp)
          · rename_i hp3
            have hprev1 : prev ≠ none := fun e => hcond (Or.inl e)
            have hrest : rest ≠ [] := fun e => hcond (Or.inr (Or.inl e))
            have hprev2 : prev ≠ some '.' := fun e => hcond (Or.inr (Or.inr e))
            have hdl : digLen ≠ 0 := by
              intro e
              rcases (h0 e).2.1 with h' | h'
              · exact hprev1 h'
              · exact hprev2 h'
            obtain ⟨hval, -, -⟩ := h1 hdl
            have hacc' : acc * 256 + val < 256 ^ (pos + 1) := by
              rw [Nat.pow_succ]
              omega
            have := ih (some '.') 0 0 (pos + 1) (acc * 256 + val) r h (by omega) hacc'
              (fun _ => ⟨rfl, Or.inr rfl, fun _ => hrest⟩) (fun e => absurd rfl e)
            have e1 : (acc * 256 + val) / 256 = acc := by omega
            have e2 : (acc * 256 + val) % 256 = val := by omega
            simp only [dottedOctets, e1, e2, octetRead, if_true, List.nil_append,
              List.append_assoc, List.singleton_append] at this
            simp only [octetRead, if_neg hdl]
            exact this
      · exact absurd h (by simp)

/-- A text that `parseIPv4Fields` accepts is the dotted quad of its value. -/
theorem parseIPv4Fields_sound (s : List Char) (n : Nat) (h : parseIPv4Fields s = some n) :
    s = string4 n ∧ n < 4294967296 := by
  have := parseIPv4Loop_sound s none 0 0 0 0 n h (by norm_num) (by norm_num)
    (fun _ => ⟨rfl, Or.inl rfl, fun e => absurd rfl e⟩) (fun e => absurd rfl e)
  simpa [dottedOctets, octetRead] using this

theorem parseIPv6_is_v6 (inp : List Char) (a : Addr) (h : parseIPv6 inp = some a) :
    ∃ m z, a = Addr.v6 m z := by
  unfold parseIPv6 at h
  split at h
  all_goals
    dsimp only at h
    repeat' split at h
    all_goals first
      | (injection h with h1; exact ⟨_, _, h1.symm⟩)
      | (injection h)

theorem parseAddrScan_v4 (whole : List Char) (n : Nat) : ∀ l : List Char,
    parseAddrScan whole l = some (Addr.v4 n) → parseIPv4Fields whole = some n := by
  intro l
  induction l with
  | nil => intro h; simp [parseAddrScan] at h
  | cons c rest ih =>
    intro h
    rw [parseAddrScan] at h
    split at h
    · simpa using h
    · split at h
      · obtain ⟨m, z, e⟩ := parseIPv6_is_v6 whole _ h
        exact absurd e (by simp)
      · split at h
        · exact absurd h (by simp)
        · exact ih h

/-- A text that `netip.ParseAddr` reads as an IPv4 address is the dotted quad of its
32-bit value. -/
theorem ParseAddr_v4_sound (a : String) (n : Nat) (h : ParseAddr a = some (Addr.v4 n)) :
    a = ⟨string4 n⟩ ∧ n < 4294967296 := by
  obtain ⟨hs, hn⟩ := parseIPv4Fields_sound a.data n (parseAddrScan_v4 a.data n a.data h)
  exact ⟨String.ext hs, hn⟩

/-! ## `getFqdn`, `getNetwork` and `getNextAddr` -/

/-- C15. For every address and every outcome of the reverse-name lookup `getFqdn`
returns a string: the placeholder `not found with default resolver` when the lookup
returns an error, and the names joined by `, ` in the order returned when it
succeeds. -/
theorem C15_getFqdn_placeholder_or_names (lookup : Resolver) (ip : String) :
    (lookup ip = none → getFqdn lookup ip = "not found with default resolver") ∧
      (∀ names, lookup ip = some names → getFqdn lookup ip = Join names ", ") ∧
      getFqdn (fun _ => none) "10.0.0.7" = "not found with default resolver" ∧
      getFqdn (fun _ => some ["gw.lan.", "router.lan."]) "10.0.0.7" = "gw.lan., router.lan." := by
  refine ⟨?_, ?_, by decide, by decide⟩
  · intro h
    simp [getFqdn, h]
  · intro names h
    simp [getFqdn, h]

/-- The bits of a masked value: those of the value at the positions of the prefix. -/
theorem networkOf_testBit (n p i : Nat) :
    (networkOf n p).testBit i = (n.testBit i && decide (32 - p ≤ i)) := by
  unfold networkOf
  rw [Nat.mul_comm, Nat.testBit_mul_pow_two, ← Nat.shiftRight_eq_div_pow,
    Nat.testBit_shiftRight]
  by_cases h : 32 - p ≤ i
  · rw [Nat.add_sub_cancel' h]
    simp [h]
  · simp [h]

theorem networkOf_idem (n p : Nat) : networkOf (networkOf n p) p = networkOf n p := by
  unfold networkOf
  rw [Nat.mul_div_cancel _ (Nat.two_pow_pos _)]

/-- C16. For every text `a` that is an IPv4 address (the dotted quad of a 32-bit value
`n`) and every prefix length up to 32, `getNetwork` returns the dotted quad of `n` with
its low `32 - cidr` bits cleared and the other bits kept, and `getNetwork` of that
result is the result again.  `getNetwork("192.168.50.35", 24)` is `192.168.50.0` and
`getNetwork("10.252.47.200", 16)` is `10.252.0.0`. -/
theorem C16_getNetwork_clears_host_bits (a : String) (n p : Nat)
    (ha : ParseAddr a = some (Addr.v4 n)) (hp : p ≤ 32) :
    getNetwork a (p : Int) = Run.done ⟨string4 (networkOf n p)⟩ ∧
      (∀ i, (networkOf n p).testBit i = (n.testBit i && decide (32 - p ≤ i))) ∧
      getNetwork ⟨string4 (networkOf n p)⟩ (p : Int) = Run.done ⟨string4 (networkOf n p)⟩ ∧
      getNetwork "192.168.50.35" 24 = Run.done "192.168.50.0" ∧
      getNetwork "10.252.47.200" 16 = Run.done "10.252.0.0" := by
  obtain ⟨rfl, hn⟩ := ParseAddr_v4_sound a n ha
  refine ⟨getNetwork_string4 n p hn hp, networkOf_testBit n p, ?_, by decide, by decide⟩
  rw [getNetwork_string4 _ p (lt_of_le_of_lt (networkOf_le n p) hn) hp, networkOf_idem]

/-- C16 at 192.168.50.35 with prefix length 24. -/
theorem C16_getNetwork_clears_host_bits_witness :
    ParseAddr "192.168.50.35" = some (Addr.v4 3232248355) ∧
      (getNetwork "192.168.50.35" ((24 : Nat) : Int) =
          Run.done ⟨string4 (networkOf 3232248355 24)⟩ ∧
        (∀ i, (networkOf 3232248355 24).testBit i =
          (Nat.testBit 3232248355 i && decide (32 - 24 ≤ i))) ∧
        getNetwork ⟨string4 (networkOf 3232248355 24)⟩ ((24 : Nat) : Int) =
          Run.done ⟨string4 (networkOf 3232248355 24)⟩ ∧
        getNetwork "192.168.50.35" 24 = Run.done "192.168.50.0" ∧
        getNetwork "10.252.47.200" 16 = Run.done "10.252.0.0") :=
  ⟨by decide, C16_getNetwork_clears_host_bits "192.168.50.35" 3232248355 24 (by decide) (by decide)⟩

/-- C17. For every text `a` that is an IPv4 address (the dotted quad of a 32-bit value
`n`) other than 255.255.255.255, `getNextAddr` returns the dotted quad of `n + 1`;
when the last octet is 255 it becomes 0 and the three octets before it, as one number,
go up by one.  `getNextAddr("10.252.1.1")` is `10.252.1.2` and
`getNextAddr("10.252.1.255")` is `10.252.2.0`. -/
theorem C17_getNextAddr_adds_one (a : String) (n : Nat) (ha : ParseAddr a = some (Addr.v4 n))
    (hmax : a ≠ "255.255.255.255") :
    getNextAddr a = Run.done ⟨string4 (n + 1)⟩ ∧
      (n % 256 = 255 → (n + 1) % 256 = 0 ∧ (n + 1) / 256 = n / 256 + 1) ∧
      getNextAddr "10.252.1.1" = Run.done "10.252.1.2" ∧
      getNextAddr "10.252.1.255" = Run.done "10.252.2.0" := by
  obtain ⟨rfl, hn⟩ := ParseAddr_v4_sound a n ha
  have hne : n ≠ 4294967295 := by
    intro e
    subst e
    exact hmax (by decide)
  refine ⟨getNextAddr_string4 n (by omega), ?_, by decide, by decide⟩
  intro h
  omega

/-- C17 at 10.252.1.255, whose successor carries into the third octet. -/
theorem C17_getNextAddr_adds_one_witness :
    ParseAddr "10.252.1.255" = some (Addr.v4 184287743) ∧
      (getNextAddr "10.252.1.255" = Run.done ⟨string4 (184287743 + 1)⟩ ∧
        (184287743 % 256 = 255 →
          (184287743 + 1) % 256 = 0 ∧ (184287743 + 1) / 256 = 184287743 / 256 + 1) ∧
        getNextAddr "10.252.1.1" = Run.done "10.252.1.2" ∧
        getNextAddr "10.252.1.255" = Run.done "10.252.2.0") :=
  ⟨by decide, C17_getNextAddr_adds_one "10.252.1.255" 184287743 (by decide) (by decide)⟩

/-! ## `bitsToMask` -/

/-- The table of `bitsToMask` for the 33 prefix lengths of IPv4. -/
theorem bitsToMask_table : ∀ ones : Nat, ones ≤ 32 →
    bitsToMask (ones : Int) 32 = some ⟨string4 (4294967296 - 2 ^ (32 - ones))⟩ := by
  decide

/-- The bits of a 32-bit mask with `k` low bits clear. -/
theorem cidrMask_testBit (k i : Nat) (hk : k ≤ 32) :
    (4294967296 - 2 ^ k).testBit i = (decide (k ≤ i) && decide (i < 32)) := by
  have e : (4294967296 : Nat) = 2 ^ 32 := by norm_num
  have hm : 2 ^ 32 - 2 ^ k = 2 ^ k * (2 ^ (32 - k) - 1) := by
    rw [Nat.mul_sub, ← Nat.pow_add, Nat.add_sub_cancel' hk, Nat.mul_one]
  rw [e, hm, Nat.testBit_mul_pow_two, Nat.testBit_two_pow_sub_one]
  by_cases hik : k ≤ i
  · by_cases hi : i < 32
    · have : i - k < 32 - k := by omega
      simp [hik, hi, this]
    · have : ¬ (i - k < 32 - k) := by omega
      simp [hik, hi, this]
  · simp [hik]

/-- C18. For every `ones` in 0..32, `bitsToMask(ones, 32)` returns the dotted quad of
the 32-bit value whose high `ones` bits are set and whose other bits are clear, the
text `net.CIDRMask(ones, 32)` has as an address; each octet is what `base2to10` makes
of its 8 bits.  `bitsToMask(28, 32)` is `255.255.255.240` and `bitsToMask(16, 32)` is
`255.255.0.0`. -/
theorem C18_bitsToMask_is_netmask (ones : Nat) (h : ones ≤ 32) :
    bitsToMask (ones : Int) 32 = some ⟨string4 (4294967296 - 2 ^ (32 - ones))⟩ ∧
      (∀ i, (4294967296 - 2 ^ (32 - ones)).testBit i =
        (decide (32 - ones ≤ i) && decide (i < 32))) ∧
      bitsToMask (ones : Int) 32 = some (ipString (CIDRMask ones 32)) ∧
      base2to10 [1, 1, 1, 1, 0, 0, 0, 0] = 240 ∧
      bitsToMask 28 32 = some "255.255.255.240" ∧ bitsToMask 16 32 = some "255.255.0.0" := by
  refine ⟨bitsToMask_table ones h, fun i => cidrMask_testBit _ i (by omega), ?_, by decide,
    by decide, by decide⟩
  rw [bitsToMask_table ones h]
  have hc : CIDRMask ones 32 = ⟨4, 4294967296 - 2 ^ (32 - ones)⟩ := by
    simp [CIDRMask, Nat.not_lt.mpr h]
  rw [hc, ipString_4]

/-- C18 at 28 ones. -/
theorem C18_bitsToMask_is_netmask_witness :
    bitsToMask ((28 : Nat) : Int) 32 = some ⟨string4 (4294967296 - 2 ^ (32 - 28))⟩ ∧
      (∀ i, (4294967296 - 2 ^ (32 - 28)).testBit i =
        (decide (32 - 28 ≤ i) && decide (i < 32))) ∧
      bitsToMask ((28 : Nat) : Int) 32 = some (ipString (CIDRMask 28 32)) ∧
      base2to10 [1, 1, 1, 1, 0, 0, 0, 0] = 240 ∧
      bitsToMask 28 32 = some "255.255.255.240" ∧ bitsToMask 16 32 = some "255.255.0.0" :=
  C18_bitsToMask_is_netmask 28 (by decide)

/-! ## The content type of `AssetHandler.ServeHTTP` -/

theorem isPrefixOf_of_append (p q l : List Char) (h : (p ++ q).isPrefixOf l = true) :
    p.isPrefixOf l = true := by
  rw [List.isPrefixOf_iff_prefix] at h ⊢
  exact (List.prefix_append p q).trans h

/-- A text that contains `p ++ q` contains `p`. -/
theorem containsChars_of_append (p q : List Char) :
    ∀ l : List Char, containsChars (p ++ q) l = true → containsChars p l = true := by
  intro l
  induction l with
  | nil =>
    intro h
    simp only [containsChars] at h ⊢
    exact isPrefixOf_of_append p q [] h
  | cons c cs ih =>
    intro h
    simp only [containsChars, Bool.or_eq_true] at h ⊢
    rcases h with h | h
    · exact Or.inl (isPrefixOf_of_append p q _ h)
    · exact Or.inr (ih h)

theorem Contains_js_of_json (fname : String) (h : Contains fname "json" = true) :
    Contains fname "js" = true :=
  containsChars_of_append ['j', 's'] ['o', 'n'] fname.data h

/-- C19. For every file name the content type chosen by `AssetHandler.ServeHTTP` is
never `application/json`: a name that contains `json` contains `js`, so it gets
`text/css` if it contains `css` and `text/javascript` otherwise. -/
theorem C19_json_case_unreachable (fname : String) :
    AssetHandler.ctype fname ≠ "application/json" ∧
      (Contains fname "json" = true → Contains fname "js" = true) ∧
      (Contains fname "json" = true →
        AssetHandler.ctype fname =
          if Contains fname "css" = true then "text/css" else "text/javascript") ∧
      AssetHandler.ctype "package.json" = "text/javascript" ∧
      AssetHandler.ctype "css.json" = "text/css" := by
  refine ⟨?_, Contains_js_of_json fname, ?_, by decide, by decide⟩
  · unfold AssetHandler.ctype
    split
    · decide
    · split
      · decide
      · split
        · decide
        · rename_i hjs _
          split
          · rename_i hjson
            exact absurd (Contains_js_of_json fname hjson) hjs
          · split <;> decide
  · intro hjson
    have hjs := Contains_js_of_json fname hjson
    by_cases hcss : Contains fname "css" = true
    · simp only [AssetHandler.ctype, hcss, if_true]
    · simp only [AssetHandler.ctype, hcss, hjs, if_true, if_false]

/-! ## The reconciliation keeps the table well formed -/

theorem Table.WF_empty : Table.WF ⟨[], 0⟩ := by
  simp [Table.WF]

/-- In a well-formed table the row of an address is the only row with its id and the
only row with its address. -/
theorem Table.WF_unique (t : Table) (hwf : t.WF) (r a : Row) (hr : r ∈ t.rows) (ha : a ∈ t.rows) :
    (a.id = r.id → a = r) ∧ (a.ipv4_address = r.ipv4_address → a = r) := by
  obtain ⟨-, -, hid, hipw⟩ := hwf
  constructor
  · intro h
    by_contra hne
    exact hid.forall (fun _ _ hxy => Ne.symm hxy) ha hr hne h
  · intro h
    by_contra hne
    exact hipw.forall (fun _ _ hxy => Ne.symm hxy) ha hr hne h

/-- One round of the reconciliation loop on the SQLite store keeps the table well
formed. -/
theorem reconcileStep_WF (t : Table) (x : Host) (hwf : t.WF) :
    (reconcileStep SQLiteRepo x t).store.WF := by
  by_cases hx : x.ListeningPorts = []
  · simp only [reconcileStep, hx, List.length_nil, gt_iff_lt, lt_self_iff_false, if_false]
    exact hwf
  · have hlen : x.ListeningPorts.length > 0 := List.length_pos.mpr hx
    cases hfind : t.rows.find? (fun r => decide (r.ipv4_address = x.IpAddress)) with
    | none =>
      have hnew : ∀ r ∈ t.rows, r.ipv4_address ≠ x.IpAddress := by
        intro r hr
        have := List.find?_eq_none.mp hfind r hr
        simpa using this
      rw [reconcileStep_first t x hx hnew]
      obtain ⟨hseq, hids, hid, hipw⟩ := hwf
      refine ⟨by simp only; omega, ?_, ?_, ?_⟩
      · intro r hr
        simp only [List.mem_append, List.mem_singleton] at hr
        rcases hr with hr | rfl
        · have := hids r hr
          simp only
          omega
        · simp only
          omega
      · simp only
        rw [List.pairwise_append]
        refine ⟨hid, List.pairwise_singleton _ _, ?_⟩
        intro a ha b hb
        simp only [List.mem_singleton] at hb
        subst hb
        have := hids a ha
        simp only
        omega
      · simp only
        rw [List.pairwise_append]
        refine ⟨hipw, List.pairwise_singleton _ _, ?_⟩
        intro a ha b hb
        simp only [List.mem_singleton] at hb
        subst hb
        exact hnew a ha
    | some r =>
      have hr : r ∈ t.rows := List.mem_of_find?_eq_some hfind
      have hrip : r.ipv4_address = x.IpAddress := by
        simpa using List.find?_some hfind
      have huniq := Table.WF_unique t hwf r
      obtain ⟨hseq, hids, hid, hipw⟩ := hwf
      have hne : r.id ≠ 0 := by
        have := hids r hr
        omega
      have hany1 : t.rows.any (fun a => decide (a.id = r.id)) = true := by
        rw [List.any_eq_true]
        exact ⟨r, hr, by simp⟩
      have hany2 : t.rows.any (fun a => decide (a.id ≠ r.id ∧ a.ipv4_address = x.IpAddress)) =
          false := by
        rw [List.any_eq_false]
        intro a ha
        simp only [decide_eq_true_eq, not_and]
        intro h1 h2
        exact h1 (congrArg Row.id ((huniq a hr ha).2 (h2.trans hrip.symm)))
      have hstore : (reconcileStep SQLiteRepo x t).store =
          { t with rows := t.rows.map (fun a =>
            if a.id = r.id then (⟨a.id, x.Fqdn, x.IpAddress, x.PortString⟩ : Row) else a) } := by
        simp only [reconcileStep, hlen, if_true, SQLiteRepo, SQLiteRepo.GetByIP, hfind,
          Row.toHost, SQLiteRepo.Update, hne, if_false, hany1, hany2]
        simp
      rw [hstore]
      have hkeep : ∀ a ∈ t.rows,
          (if a.id = r.id then (⟨a.id, x.Fqdn, x.IpAddress, x.PortString⟩ : Row) else a).id = a.id ∧
          (if a.id = r.id then (⟨a.id, x.Fqdn, x.IpAddress, x.PortString⟩ : Row)
            else a).ipv4_address = a.ipv4_address := by
        intro a ha
        by_cases h : a.id = r.id
        · have := (huniq a hr ha).1 h
          subst this
          simp [hrip]
        · simp [h]
      refine ⟨hseq, ?_, ?_, ?_⟩
      · intro b hb
        simp only [List.mem_map] at hb
        obtain ⟨a, ha, rfl⟩ := hb
        rw [(hkeep a ha).1]
        exact hids a ha
      · simp only
        rw [List.pairwise_map]
        refine List.Pairwise.imp_of_mem ?_ hid
        intro a b ha hb hab
        rw [(hkeep a ha).1, (hkeep b hb).1]
        exact hab
      · simp only
        rw [List.pairwise_map]
        refine List.Pairwise.imp_of_mem ?_ hipw
        intro a b ha hb hab
        rw [(hkeep a ha).2, (hkeep b hb).2]
        exact hab

end Kyoketsu
